import Mathlib

/-!
Verification development for the pandora package manager.

Shallow embedding of the core routines of the repository:
sha256.c (one-shot and incremental SHA-256, hex codecs), the archive
codec in cli/cli.c (sanitize_relpath, do_pack offset computation,
do_unpack), store_manager.c (store_import_pkg_atomic) and
profile_manager.c (normalize_relpath, profile_assemble_tmp,
profile_atomic_activate), together with a small filesystem model for
the stateful routines.  Machine integers are modelled as Nat with
explicit reduction modulo 2 to the word width where the C code can
wrap.  Byte strings are List Nat, each element a byte value.
-/

set_option maxRecDepth 100000
set_option linter.unreachableTactic false
set_option linter.unusedTactic false
set_option linter.unnecessarySeqFocus false

namespace SHA

/-- 2 to the 32, the modulus of C uint32_t arithmetic. -/
def M32 : Nat := 4294967296

/-- The SHA-256 round constant table K from sha256.c. -/
def K : List Nat := [
  1116352408, 1899447441, 3049323471, 3921009573, 961987163, 1508970993,
  2453635748, 2870763221, 3624381080, 310598401, 607225278, 1426881987,
  1925078388, 2162078206, 2614888103, 3248222580, 3835390401, 4022224774,
  264347078, 604807628, 770255983, 1249150122, 1555081692, 1996064986,
  2554220882, 2821834349, 2952996808, 3210313671, 3336571891, 3584528711,
  113926993, 338241895, 666307205, 773529912, 1294757372, 1396182291,
  1695183700, 1986661051, 2177026350, 2456956037, 2730485921, 2820302411,
  3259730800, 3345764771, 3516065817, 3600352804, 4094571909, 275423344,
  430227734, 506948616, 659060556, 883997877, 958139571, 1322822218,
  1537002063, 1747873779, 1955562222, 2024104815, 2227730452, 2361852424,
  2428436474, 2756734187, 3204031479, 3329325298]

/-- rotr32 from sha256.c: rotate a 32-bit word right by r. -/
def rotr32 (x r : Nat) : Nat := (x >>> r ||| x <<< (32 - r)) % M32

/-- The initial hash state (identical in sha256 and sha256_inc_init). -/
def H0 : List Nat := [1779033703, 3144134277, 1013904242, 2773480762,
  1359893119, 2600822924, 528734635, 1541459225]

/-- Load a 64-byte block as 16 big-endian 32-bit words (the first loop
of sha256_compress and sha256_transform). -/
def words16 : List Nat → List Nat
  | b0 :: b1 :: b2 :: b3 :: rest =>
      ((b0 <<< 24 ||| b1 <<< 16 ||| b2 <<< 8 ||| b3) % M32) :: words16 rest
  | _ => []

/-- One step of the message schedule extension: append W[t] computed
from W[t-2], W[t-7], W[t-15], W[t-16]. -/
def schedStep (w : List Nat) : List Nat :=
  let t := w.length
  let wm2 := w.getD (t - 2) 0
  let wm7 := w.getD (t - 7) 0
  let wm15 := w.getD (t - 15) 0
  let wm16 := w.getD (t - 16) 0
  let s0 := rotr32 wm15 7 ^^^ rotr32 wm15 18 ^^^ (wm15 >>> 3)
  let s1 := rotr32 wm2 17 ^^^ rotr32 wm2 19 ^^^ (wm2 >>> 10)
  w ++ [(wm16 + s0 + wm7 + s1) % M32]

/-- Iterate the schedule extension (the t = 16..63 loop). -/
def schedN : Nat → List Nat → List Nat
  | 0, w => w
  | n + 1, w => schedN n (schedStep w)

/-- The eight working variables of the compression loop. -/
structure Vars where
  a : Nat
  b : Nat
  c : Nat
  d : Nat
  e : Nat
  f : Nat
  g : Nat
  h : Nat
deriving DecidableEq

/-- One round of the compression loop of sha256_compress. -/
def roundFn (v : Vars) (kw : Nat × Nat) : Vars :=
  let S1 := rotr32 v.e 6 ^^^ rotr32 v.e 11 ^^^ rotr32 v.e 25
  let ch := (v.e &&& v.f) ^^^ ((4294967295 ^^^ v.e) &&& v.g)
  let temp1 := (v.h + S1 + ch + kw.1 + kw.2) % M32
  let S0 := rotr32 v.a 2 ^^^ rotr32 v.a 13 ^^^ rotr32 v.a 22
  let maj := (v.a &&& v.b) ^^^ (v.a &&& v.c) ^^^ (v.b &&& v.c)
  let temp2 := (S0 + maj) % M32
  { a := (temp1 + temp2) % M32, b := v.a, c := v.b, d := v.c,
    e := (v.d + temp1) % M32, f := v.e, g := v.f, h := v.g }

/-- sha256_compress from sha256.c (identical, line for line, to
sha256_transform in the incremental half of the file): compress one
64-byte block into the running state. -/
def sha256_compress (state : List Nat) (block : List Nat) : List Nat :=
  let w := schedN 48 (words16 block)
  let v0 : Vars := { a := state.getD 0 0, b := state.getD 1 0, c := state.getD 2 0,
                     d := state.getD 3 0, e := state.getD 4 0, f := state.getD 5 0,
                     g := state.getD 6 0, h := state.getD 7 0 }
  let v := (K.zip w).foldl roundFn v0
  [(state.getD 0 0 + v.a) % M32, (state.getD 1 0 + v.b) % M32,
   (state.getD 2 0 + v.c) % M32, (state.getD 3 0 + v.d) % M32,
   (state.getD 4 0 + v.e) % M32, (state.getD 5 0 + v.f) % M32,
   (state.getD 6 0 + v.g) % M32, (state.getD 7 0 + v.h) % M32]

/-- sha256_transform from the incremental half of sha256.c; the C
source duplicates the same computation under a second name. -/
def sha256_transform (state : List Nat) (block : List Nat) : List Nat :=
  sha256_compress state block

/-- The 64-bit big-endian length field appended by the padding. -/
def be64 (n : Nat) : List Nat :=
  [(n >>> 56) % 256, (n >>> 48) % 256, (n >>> 40) % 256, (n >>> 32) % 256,
   (n >>> 24) % 256, (n >>> 16) % 256, (n >>> 8) % 256, n % 256]

/-- Serialize the eight state words as the big-endian 32-byte digest. -/
def digestBytes : List Nat → List Nat
  | [] => []
  | s :: rest =>
      (s >>> 24) % 256 :: (s >>> 16) % 256 :: (s >>> 8) % 256 :: s % 256 :: digestBytes rest

/-- The full-block loop of the one-shot sha256: consume 64-byte blocks
while at least 64 bytes remain.  Fuel bounds the iteration so the
definition stays structural; data.length is always enough fuel. -/
def sha256_blocks : Nat → List Nat → List Nat → List Nat × List Nat
  | 0, state, data => (state, data)
  | fuel + 1, state, data =>
      if 64 ≤ data.length then
        sha256_blocks fuel (sha256_compress state (data.take 64)) (data.drop 64)
      else (state, data)

/-- The one-shot sha256 from sha256.c: full blocks, then a 64- or
128-byte tail holding the remainder, the 0x80 marker, zero padding and
the big-endian bit count of the input (computed from len directly). -/
def sha256 (data : List Nat) : List Nat :=
  let sr := sha256_blocks data.length H0 data
  let state := sr.1
  let rem := sr.2
  let pad_len := if rem.length + 1 + 8 ≤ 64 then 64 else 128
  let bits := data.length * 8
  let tail := rem ++ [128] ++ List.replicate (pad_len - rem.length - 9) 0 ++ be64 bits
  let st2 := sha256_compress state (tail.take 64)
  let st3 := if pad_len = 128 then sha256_compress st2 (tail.drop 64) else st2
  digestBytes st3

/-- The incremental hashing context sha256_ctx_t: running state, the
partial block buffer, and the bit count accumulated so far. -/
structure sha256_ctx where
  h : List Nat
  buf : List Nat
  bitlen : Nat
deriving DecidableEq

/-- sha256_inc_init from sha256.c. -/
def sha256_inc_init : sha256_ctx := { h := H0, buf := [], bitlen := 0 }

/-- The while loop of sha256_inc_update: move bytes into the block
buffer, compressing whenever it fills.  Fuel bounds the loop; one byte
is consumed per iteration at least, so data.length + 1 is enough. -/
def updGo : Nat → List Nat → List Nat → List Nat → List Nat × List Nat
  | 0, h, buf, _ => (h, buf)
  | fuel + 1, h, buf, p =>
      match p with
      | [] => (h, buf)
      | _ =>
          let take := min (64 - buf.length) p.length
          let buf2 := buf ++ p.take take
          if buf2.length = 64 then
            updGo fuel (sha256_transform h buf2) [] (p.drop take)
          else
            updGo fuel h buf2 (p.drop take)

/-- sha256_inc_update from sha256.c: the bit count grows by the input
length at entry, then the buffer loop runs. -/
def sha256_inc_update (ctx : sha256_ctx) (data : List Nat) : sha256_ctx :=
  let hb := updGo (data.length + 1) ctx.h ctx.buf data
  { h := hb.1, buf := hb.2, bitlen := ctx.bitlen + data.length * 8 }

/-- sha256_inc_final from sha256.c.  The padding bytes are pushed
through sha256_inc_update, and only afterwards is ctx.bitlen read into
the length field, so the recorded bit count includes the padding. -/
def sha256_inc_final (ctx : sha256_ctx) : List Nat :=
  let padlen := if ctx.buf.length < 56 then 56 - ctx.buf.length else 64 + 56 - ctx.buf.length
  let ctx2 := sha256_inc_update ctx (128 :: List.replicate (padlen - 1) 0)
  let bitlen_be := ctx2.bitlen
  let ctx3 := sha256_inc_update ctx2 (be64 bitlen_be)
  digestBytes ctx3.h

/-- The lowercase hex character table of sha256_to_hex, as byte values. -/
def hexchars : List Nat := [48, 49, 50, 51, 52, 53, 54, 55, 56, 57, 97, 98, 99, 100, 101, 102]

/-- sha256_to_hex from sha256.c: render each digest byte as two
lowercase hex characters. -/
def sha256_to_hex : List Nat → List Nat
  | [] => []
  | b :: rest =>
      hexchars.getD ((b >>> 4) &&& 15) 0 :: hexchars.getD (b &&& 15) 0 :: sha256_to_hex rest

/-- The per-character decoder of hex_to_bin; 255 marks an invalid
character, exactly as in the C conditional chain. -/
def hexVal (c : Nat) : Nat :=
  if 48 ≤ c ∧ c ≤ 57 then c - 48
  else if 97 ≤ c ∧ c ≤ 102 then c - 97 + 10
  else if 65 ≤ c ∧ c ≤ 70 then c - 65 + 10
  else 255

/-- The pair loop of hex_to_bin: decode two characters per output
byte, failing on any invalid character. -/
def hexPairs : List Nat → Option (List Nat)
  | [] => some []
  | a :: b :: rest =>
      if hexVal a = 255 ∨ hexVal b = 255 then none
      else (hexPairs rest).map (fun t => (hexVal a <<< 4 ||| hexVal b) :: t)
  | _ :: [] => none

/-- hex_to_bin from sha256.c: reject odd length and outputs larger
than the caller buffer, then decode pairwise.  some bytes models the
nonnegative return (the byte count equals the result length). -/
def hex_to_bin (hex : List Nat) (outlen : Nat) : Option (List Nat) :=
  if hex.length % 2 ≠ 0 then none
  else if outlen < hex.length / 2 then none
  else hexPairs hex

/-- Uppercase rendering of a hex string (byte-level toupper). -/
def upperHex (hex : List Nat) : List Nat :=
  hex.map (fun c => if 97 ≤ c ∧ c ≤ 122 then c - 32 else c)

end SHA

section SHAtests

/-- The NIST digest of the empty string. -/
def nistEmpty : List Nat :=
  [227, 176, 196, 66, 152, 252, 28, 20, 154, 251, 244, 200, 153, 111, 185, 36,
   39, 174, 65, 228, 100, 155, 147, 76, 164, 149, 153, 27, 120, 82, 184, 85]

/-- The NIST digest of the three-byte string abc. -/
def nistAbc : List Nat :=
  [186, 120, 22, 191, 143, 1, 207, 234, 65, 65, 64, 222, 93, 174, 34, 35,
   176, 3, 97, 163, 150, 23, 122, 156, 180, 16, 255, 97, 242, 0, 21, 173]

/-- The bytes of abc. -/
def abcBytes : List Nat := [97, 98, 99]

example : SHA.sha256 [] = nistEmpty := by decide
example : SHA.sha256 abcBytes = nistAbc := by decide

/-- What the incremental implementation actually produces on the empty
string: the length field it writes is 448 (the padding bits), not 0. -/
def incEmptyDigest : List Nat :=
  [134, 77, 79, 77, 183, 64, 13, 86, 111, 30, 7, 190, 45, 147, 75, 223,
   218, 60, 119, 245, 8, 27, 106, 42, 72, 158, 247, 134, 5, 133, 144, 134]

example : SHA.sha256_inc_final (SHA.sha256_inc_update SHA.sha256_inc_init []) = incEmptyDigest := by
  decide

end SHAtests

/-- Split a byte string into components at slash bytes; the helper
carries the component being read. -/
def splitSlashAux : List Nat → List Nat → List (List Nat)
  | [], cur => [cur]
  | b :: rest, cur =>
      if b = 47 then cur :: splitSlashAux rest [] else splitSlashAux rest (cur ++ [b])

/-- All slash-separated components of a byte string, empties included. -/
def splitSlash (p : List Nat) : List (List Nat) := splitSlashAux p []

/-- The C-string view of a byte buffer: everything before the first NUL. -/
def cstr (p : List Nat) : List Nat := p.takeWhile (fun b => b ≠ 0)

namespace Arch

/-- The component accumulation loop of sanitize_relpath from
cli/cli.c: empty and single-dot components are dropped, a dot-dot
component pops the previously accepted component and is rejected only
when no component is left to pop, other components are pushed.  A
component of PATH_MAX bytes or more yields NULL; the C code calls die
when more than PATH_MAX / 2 components accumulate, modelled as none
(no claim exercises that branch). -/
def sanLoop : List (List Nat) → List (List Nat) → Option (List (List Nat))
  | [], acc => if acc = [] then none else some acc
  | c :: rest, acc =>
      if 4096 ≤ c.length then none
      else if c = [] then sanLoop rest acc
      else if c = [46] then sanLoop rest acc
      else if c = [46, 46] then
        match acc with
        | [] => none
        | _ => sanLoop rest acc.dropLast
      else if 2048 ≤ acc.length + 1 then none
      else sanLoop rest (acc ++ [c])

/-- sanitize_relpath from cli/cli.c, on the C-string contents of the
stored path.  Returns the list of sanitized components (the C code
rejoins them with single slashes); none models the NULL return.  The
final check rejects a joined length of PATH_MAX or more. -/
def sanitize_relpath (p : List Nat) : Option (List (List Nat)) :=
  match sanLoop (splitSlash (cstr p)) [] with
  | none => none
  | some parts =>
      let tot := parts.foldl (fun a c => a + c.length) 0 + (parts.length - 1)
      if tot = 0 ∨ 4096 ≤ tot then none else some parts

example : sanitize_relpath [97, 47, 46, 46, 47, 98] = some [[98]] := by decide
example : sanitize_relpath [46, 46, 47, 98] = none := by decide
example : sanitize_relpath [47, 47, 97, 47, 46, 47, 98] = some [[97], [98]] := by decide

end Arch

namespace PM

/-- The token loop of normalize_relpath from profile_manager.c
(the assembler variant with strict rejection): any empty, single-dot
or dot-dot token returns an error outright; the running length check
mirrors the PATH_MAX buffer bound; the components are rejoined with
single slashes, modelled as the component list. -/
def normLoop : List (List Nat) → List (List Nat) → Option (List (List Nat))
  | [], acc => if acc = [] then none else some acc
  | tok :: rest, acc =>
      if tok = [] ∨ tok = [46] ∨ tok = [46, 46] then none
      else
        let off := acc.foldl (fun a c => a + c.length) 0 + (acc.length - 1)
        let need := off + (if acc = [] then 0 else 1) + tok.length + 1
        if 4096 < need then none
        else normLoop rest (acc ++ [tok])

/-- normalize_relpath from profile_manager.c: strictly rejects empty
input, absolute paths, and any dot or dot-dot component; strtok
supplies only the nonempty slash-separated tokens. -/
def normalize_relpath (src : List Nat) : Option (List (List Nat)) :=
  match src with
  | [] => none
  | b :: _ =>
      if b = 47 then none
      else normLoop ((splitSlash src).filter (fun c => c ≠ [])) []

example : normalize_relpath [97, 47, 46, 46, 47, 98] = none := by decide
example : normalize_relpath [98, 105, 110, 47, 120] = some [[98, 105, 110], [120]] := by decide
example : normalize_relpath [47, 97] = none := by decide

end PM

namespace FSm

/-! A small POSIX-like filesystem model shared by the stateful
routines.  Paths are lists of components (byte strings); the state is
an association list from absolute paths to nodes.  The root directory
is implicit.  Symbolic links store their raw target bytes and are
resolved with bounded fuel, following the kernel limit on link
chains. -/

/-- A path component: the bytes between two slashes. -/
abbrev Comp := List Nat

/-- An absolute path: the list of components from the root. -/
abbrev FPath := List Comp

/-- A filesystem node. -/
inductive Node where
  | file (data : List Nat)
  | dir
  | symlink (target : List Nat)
deriving DecidableEq

/-- The filesystem: an association list from paths to nodes. -/
abbrev FS := List (FPath × Node)

/-- Find the node at a path. -/
def lookup : FS → FPath → Option Node
  | [], _ => none
  | e :: rest, p => if e.1 = p then some e.2 else lookup rest p

/-- Drop every binding of a path. -/
def removeNode : FS → FPath → FS
  | [], _ => []
  | e :: rest, p => if e.1 = p then removeNode rest p else e :: removeNode rest p

/-- Bind a path to a node, replacing any previous binding. -/
def setNode (fs : FS) (p : FPath) (n : Node) : FS := (p, n) :: removeNode fs p

/-- p is an initial segment of q (p = q included). -/
def pathLe : FPath → FPath → Bool
  | [], _ => true
  | _, [] => false
  | a :: as, b :: bs => if a = b then pathLe as bs else false

/-- Remove a path and every path below it (recursive deletion). -/
def removeSubtree : FS → FPath → FS
  | [], _ => []
  | e :: rest, p => if pathLe p e.1 then removeSubtree rest p else e :: removeSubtree rest p

/-- Does anything exist strictly below p? -/
def anyUnder : FS → FPath → Bool
  | [], _ => false
  | e :: rest, p => if pathLe p e.1 ∧ e.1 ≠ p then true else anyUnder rest p

/-- Move the subtree rooted at src to dst (the rename(2) effect on a
directory tree). -/
def renameSubtree (fs : FS) (src dst : FPath) : FS :=
  fs.map (fun e => if pathLe src e.1 then (dst ++ e.1.drop src.length, e.2) else e)

/-- Interpret raw symlink-target or path bytes: absolute when they
start with a slash, components are the nonempty slash-separated
pieces. -/
def splitAbs (raw : List Nat) : Bool × FPath :=
  ((match raw with | 47 :: _ => true | _ => false),
   (splitSlash raw).filter (fun c => c ≠ []))

/-- The root is a directory; other paths are directories when bound to
a dir node. -/
def isDirAt (fs : FS) (p : FPath) : Bool :=
  match p with
  | [] => true
  | _ => lookup fs p = some Node.dir

/-- Path resolution with symlink following.  cur is the directory
resolved so far; a symlink in a non-final position (or in final
position with followFinal set) restarts resolution at its target.  A
missing or non-directory intermediate fails; a missing final component
resolves to its would-be location, as the syscalls that may create it
expect. -/
def resolveComps : FS → Nat → FPath → List Comp → Bool → Option FPath
  | _, 0, _, _, _ => none
  | fs, fuel + 1, cur, comps, followFinal =>
      match comps with
      | [] => some cur
      | c :: rest =>
          let p := cur ++ [c]
          match lookup fs p with
          | some (Node.symlink tgt) =>
              if rest = [] ∧ followFinal = false then some p
              else
                let ab := splitAbs (cstr tgt)
                resolveComps fs fuel (if ab.1 then [] else cur) (ab.2 ++ rest) followFinal
          | some Node.dir => resolveComps fs fuel p rest followFinal
          | some (Node.file _) => if rest = [] then some p else none
          | none => if rest = [] then some p else none

/-- The symlink-chain fuel, the kernel SYMLOOP-style bound. -/
def FUEL : Nat := 40

/-- The three outcomes of mkdir(2) that the sources distinguish. -/
inductive MkdirRes where
  | made (fs : FS)
  | eexist
  | failed

/-- mkdir(2): the parent must be a directory; eexist when the final
name is already bound (to anything, a symlink included).  The model
takes the parent literally; the theorems below only exercise
symlink-free parent chains, where this matches POSIX resolution. -/
def mkdirOp (fs : FS) (p : FPath) : MkdirRes :=
  match p with
  | [] => MkdirRes.failed
  | _ =>
      if isDirAt fs p.dropLast then
        match lookup fs p with
        | some _ => MkdirRes.eexist
        | none => MkdirRes.made (setNode fs p Node.dir)
      else MkdirRes.failed

/-- Run mkdir over a list of paths, tolerating EEXIST and dying on any
other failure: the shape of every mkdir-p loop in the sources. -/
def mkdirsList : FS → List FPath → Option FS
  | fs, [] => some fs
  | fs, q :: rest =>
      match mkdirOp fs q with
      | MkdirRes.made fs2 => mkdirsList fs2 rest
      | MkdirRes.eexist => mkdirsList fs rest
      | MkdirRes.failed => none

/-- The nonempty prefixes of a path, shortest first. -/
def prefixesOf (p : FPath) : List FPath :=
  (List.range p.length).map (fun i => p.take (i + 1))

/-- fopen(path, wb): full resolution including the final component;
truncate an existing regular file, create a missing one under an
existing parent directory, fail on a directory.  Returns the resolved
path the stream writes to. -/
def writeFileR (fs : FS) (p : FPath) (data : List Nat) : Option (FS × FPath) :=
  match resolveComps fs FUEL [] p true with
  | none => none
  | some rp =>
      match lookup fs rp with
      | some (Node.file _) => some (setNode fs rp (Node.file data), rp)
      | some Node.dir => none
      | some (Node.symlink _) => none
      | none =>
          if rp ≠ [] ∧ isDirAt fs rp.dropLast then
            some (setNode fs rp (Node.file data), rp)
          else none

/-- unlink(2): the final component is not followed; directories are
refused; parents are taken literally as in mkdirOp. -/
def unlinkOp (fs : FS) (p : FPath) : Option FS :=
  match p with
  | [] => none
  | _ =>
      if isDirAt fs p.dropLast then
        match lookup fs p with
        | some Node.dir => none
        | some _ => some (removeNode fs p)
        | none => none
      else none

/-- symlink(2): create a link node holding the raw target bytes; the
final component must be free, the parent a directory, the target
nonempty; parents are taken literally as in mkdirOp. -/
def symlinkOp (fs : FS) (tgt : List Nat) (p : FPath) : Option FS :=
  match p with
  | [] => none
  | _ =>
      if tgt = [] then none
      else
        if isDirAt fs p.dropLast then
          match lookup fs p with
          | some _ => none
          | none => some (setNode fs p (Node.symlink tgt))
        else none

/-- rmdir(2): remove a directory only when nothing lies below it. -/
def rmdirOp (fs : FS) (p : FPath) : FS :=
  match lookup fs p with
  | some Node.dir => if anyUnder fs p then fs else removeNode fs p
  | _ => fs

/-- rename(2) as the sources use it: moving a directory tree to a
fresh location, or moving a non-directory on top of anything that is
not a directory. -/
def renameOp (fs : FS) (src dst : FPath) : Option FS :=
  match lookup fs src with
  | none => none
  | some Node.dir =>
      if lookup fs dst = none then some (renameSubtree fs src dst) else none
  | some n =>
      match lookup fs dst with
      | some Node.dir => none
      | _ => some (setNode (removeNode fs src) dst n)

end FSm

namespace Arch

open FSm

/-- The 8-byte archive magic PNDARCH backslash-1 of cli/cli.c. -/
def MAGICB : List Nat := [80, 78, 68, 65, 82, 67, 72, 1]

/-- Read a little-endian u32 at a byte position. -/
def readU32 (arc : List Nat) (pos : Nat) : Option Nat :=
  match arc.drop pos with
  | b0 :: b1 :: b2 :: b3 :: _ => some (b0 + 256 * b1 + 65536 * b2 + 16777216 * b3)
  | _ => none

/-- Read a little-endian u64 at a byte position. -/
def readU64 (arc : List Nat) (pos : Nat) : Option Nat :=
  match arc.drop pos with
  | b0 :: b1 :: b2 :: b3 :: b4 :: b5 :: b6 :: b7 :: _ =>
      some (b0 + 256 * b1 + 65536 * b2 + 16777216 * b3 + 4294967296 * b4 +
            1099511627776 * b5 + 281474976710656 * b6 + 72057594037927936 * b7)
  | _ => none

/-- Little-endian serialization of a u32 (write_u32_le). -/
def u32le (v : Nat) : List Nat :=
  [v % 256, v / 256 % 256, v / 65536 % 256, v / 16777216 % 256]

/-- Little-endian serialization of a u64 (write_u64_le). -/
def u64le (v : Nat) : List Nat :=
  [v % 256, v / 256 % 256, v / 65536 % 256, v / 16777216 % 256,
   v / 4294967296 % 256, v / 1099511627776 % 256,
   v / 281474976710656 % 256, v / 72057594037927936 % 256]

/-- One parsed table entry of do_unpack: the sanitized path (none for
an empty or rejected stored path, which makes the entry skipped), and
the size, advisory offset and flag fields. -/
structure FileRec where
  path : Option FPath
  size : Nat
  offset : Nat
  flags : Nat
deriving DecidableEq

/-- The table-reading loop of do_unpack: for each of the count
entries, read the four header fields and the stored path, sanitize the
path, and accumulate table_size as ENTRY_HDR_SIZE plus path_len.
Short reads die (none). -/
def parseTable (arc : List Nat) : Nat → Nat → Nat → Option (List FileRec × Nat)
  | 0, _, tsize => some ([], tsize)
  | cnt + 1, pos, tsize =>
      match readU32 arc pos with
      | none => none
      | some plen =>
          match readU64 arc (pos + 4) with
          | none => none
          | some size =>
              match readU64 arc (pos + 12) with
              | none => none
              | some offset =>
                  match readU32 arc (pos + 20) with
                  | none => none
                  | some flags =>
                      if plen = 0 then
                        match parseTable arc cnt (pos + 24) (tsize + 24) with
                        | none => none
                        | some (recs, t) =>
                            some ({ path := none, size := size, offset := offset,
                                    flags := flags } :: recs, t)
                      else
                        if arc.length < pos + 24 + plen then none
                        else
                          let raw := (arc.drop (pos + 24)).take plen
                          match parseTable arc cnt (pos + 24 + plen) (tsize + 24 + plen) with
                          | none => none
                          | some (recs, t) =>
                              some ({ path := sanitize_relpath raw, size := size,
                                      offset := offset, flags := flags } :: recs, t)

/-- Join components with single slashes (the manifest line form). -/
def joinComps : FPath → List Nat
  | [] => []
  | [c] => c
  | c :: rest => c ++ 47 :: joinComps rest

/-- The bytes of the manifest: one line per accepted path. -/
def manifestBytes (lines : List FPath) : List Nat :=
  lines.foldr (fun l acc => joinComps l ++ 10 :: acc) []

/-- The component name .manifest. -/
def manifestName : Comp := [46, 109, 97, 110, 105, 102, 101, 115, 116]

/-- ensure_parent_dirs from cli/cli.c: mkdir every nonempty prefix of
the parent of the full output path, tolerating EEXIST and dying on any
other failure. -/
def ensure_parent_dirs (fs : FS) (outp : FPath) : Option FS :=
  mkdirsList fs (prefixesOf outp.dropLast)

/-- The blob-extraction loop of do_unpack.  pos is the stream
position; an invalid entry only advances it.  A symlink entry reads
its blob as the target (C-string semantics), unlinks any node at the
output path (ignoring failure) and creates the link, dying when
symlink fails.  A regular entry streams its blob into a freshly opened
file, following symlinks on the whole output path as fopen does.  The
accepted paths accumulate for the manifest. -/
def extractLoop (arc : List Nat) (dcomps : FPath) :
    FS → List FileRec → Nat → List FPath → Option (FS × List FPath)
  | fs, [], _, acc => some (fs, acc)
  | fs, r :: rest, pos, acc =>
      match r.path with
      | none => extractLoop arc dcomps fs rest (pos + r.size) acc
      | some p =>
          let outp := dcomps ++ p
          match ensure_parent_dirs fs outp with
          | none => none
          | some fs1 =>
              if arc.length < pos + r.size then none
              else
                let buf := (arc.drop pos).take r.size
                if r.flags % 2 = 1 then
                  let fs2 := match unlinkOp fs1 outp with
                             | some f => f
                             | none => fs1
                  match symlinkOp fs2 (cstr buf) outp with
                  | none => none
                  | some fs3 => extractLoop arc dcomps fs3 rest (pos + r.size) (acc ++ [p])
                else
                  match writeFileR fs1 outp buf with
                  | none => none
                  | some fr => extractLoop arc dcomps fr.1 rest (pos + r.size) (acc ++ [p])

/-- The destination components: the C code strips trailing slashes
and treats dest as a single path string; the model works on its
nonempty components (absolute destinations). -/
def destComps (destRaw : List Nat) : FPath :=
  (splitSlash (cstr destRaw)).filter (fun c => c ≠ [])

/-- ensure_destdir from cli/cli.c: stat the destination; a present
directory is fine, another node type dies, a missing one is created
with a single mkdir tolerating EEXIST. -/
def ensure_destdir (fs : FS) (dcomps : FPath) : Option FS :=
  match resolveComps fs FUEL [] dcomps true with
  | none => none
  | some rp =>
      if rp = [] then some fs
      else
        match lookup fs rp with
        | some Node.dir => some fs
        | some _ => none
        | none =>
            match mkdirOp fs dcomps with
            | MkdirRes.made fs2 => some fs2
            | MkdirRes.eexist => some fs
            | MkdirRes.failed => none

/-- do_unpack from cli/cli.c: ensure the destination directory, check
the magic, read entry_count (returning with nothing else done when it
is zero), parse the table, create the manifest file, seek to
header_size + table_size, run the extraction loop, and finally write
the manifest lines.  none models die (process abort). -/
def do_unpack (arc : List Nat) (destRaw : List Nat) (fs : FS) : Option FS :=
  match ensure_destdir fs (destComps destRaw) with
  | none => none
  | some fs1 =>
      if arc.take 8 = MAGICB then
        match readU64 arc 8 with
        | none => none
        | some count =>
            if count = 0 then some fs1
            else
              match parseTable arc count 16 0 with
              | none => none
              | some rt =>
                  match writeFileR fs1 (destComps destRaw ++ [manifestName]) [] with
                  | none => none
                  | some fm =>
                      match extractLoop arc (destComps destRaw) fm.1 rt.1 (16 + rt.2) [] with
                      | none => none
                      | some fl => some (setNode fl.1 fm.2 (Node.file (manifestBytes fl.2)))
      else none

end Arch

section ArchTests

/-- The component d. -/
def compD : FSm.Comp := [100]

/-- The component outside. -/
def compOutside : FSm.Comp := [111, 117, 116, 115, 105, 100, 101]

/-- The component lnk. -/
def compLnk : FSm.Comp := [108, 110, 107]

/-- The component evil. -/
def compEvil : FSm.Comp := [101, 118, 105, 108]

/-- A crafted archive: entry 1 is a symlink lnk with absolute target
outside the destination, entry 2 is a regular file stored as
lnk/evil.  Both stored paths pass sanitize_relpath. -/
def evilArchive : List Nat :=
  Arch.MAGICB ++ Arch.u64le 2 ++
  (Arch.u32le 3 ++ Arch.u64le 8 ++ Arch.u64le 0 ++ Arch.u32le 1 ++ compLnk) ++
  (Arch.u32le 8 ++ Arch.u64le 1 ++ Arch.u64le 0 ++ Arch.u32le 0 ++
    (compLnk ++ 47 :: compEvil)) ++
  (47 :: compOutside) ++ [88]

/-- Initial filesystem: the destination /d and an unrelated directory
/outside both exist. -/
def fsEscape0 : FSm.FS := [([compD], FSm.Node.dir), ([compOutside], FSm.Node.dir)]

/-- The destination path /d as raw bytes. -/
def destD : List Nat := [47, 100]

example :
    ∃ fs1, Arch.do_unpack evilArchive destD fsEscape0 = some fs1 ∧
      FSm.lookup fs1 [compOutside, compEvil] = some (FSm.Node.file [88]) := by
  refine ⟨_, rfl, ?_⟩
  decide

end ArchTests

namespace Arch

/-- A record collected by do_pack (struct file_rec): the stored
archive path, the blob size and the flag word; the source path and the
assigned offset are not part of the identity. -/
structure PackRec where
  path : List Nat
  size : Nat
  flags : Nat
deriving DecidableEq

/-- The table size computed by do_pack: ENTRY_HDR_SIZE (24) plus the
path length, summed over the records. -/
def tableSize : List PackRec → Nat
  | [] => 0
  | r :: rest => 24 + r.path.length + tableSize rest

/-- The offset-assignment loop of do_pack: each record receives the
running offset, which then grows by its size. -/
def assignOffsets : List PackRec → Nat → List Nat
  | [], _ => []
  | r :: rest, cur => cur :: assignOffsets rest (cur + r.size)

/-- The blob offsets do_pack writes: sequential from
header_size + table_size. -/
def packOffsets (recs : List PackRec) : List Nat :=
  assignOffsets recs (16 + tableSize recs)

/-- One serialized table entry, as the writer loop of do_pack emits
it: u32 path_len, u64 size, u64 offset, u32 flags, then the path
bytes. -/
def serializeEntry (r : PackRec) (off : Nat) : List Nat :=
  u32le r.path.length ++ u64le r.size ++ u64le off ++ u32le r.flags ++ r.path

/-- The serialized entry table for a record list and an offset list. -/
def serializeTable : List PackRec → List Nat → List Nat
  | [], _ => []
  | _ :: _, [] => []
  | r :: rest, o :: os => serializeEntry r o ++ serializeTable rest os

/-- A serialized archive: magic, entry count, table, then the blob
region. -/
def archiveBytes (recs : List PackRec) (offs : List Nat) (blobs : List Nat) : List Nat :=
  MAGICB ++ u64le recs.length ++ serializeTable recs offs ++ blobs

/-- What parseTable recovers from a serialized entry: the sanitized
path (none when the stored length is zero), and the numeric fields
reduced to their encodable width. -/
def decodedRec (r : PackRec) (o : Nat) : FileRec :=
  { path := if r.path.length = 0 then none else sanitize_relpath r.path,
    size := r.size % 18446744073709551616,
    offset := o % 18446744073709551616,
    flags := r.flags % 4294967296 }

/-- decodedRec mapped over matching record and offset lists. -/
def decodedRecs : List PackRec → List Nat → List FileRec
  | [], _ => []
  | _ :: _, [] => []
  | r :: rest, o :: os => decodedRec r o :: decodedRecs rest os

end Arch

namespace Arch

theorem u32le_length (v : Nat) : (u32le v).length = 4 := by
  simp [u32le]

theorem u64le_length (v : Nat) : (u64le v).length = 8 := by
  simp [u64le]

theorem readU32_encode (pre : List Nat) (v : Nat) (rest : List Nat) :
    readU32 (pre ++ (u32le v ++ rest)) pre.length = some (v % 4294967296) := by
  unfold readU32
  rw [List.drop_left]
  simp only [u32le, List.cons_append]
  congr 1
  omega

theorem readU64_encode (pre : List Nat) (v : Nat) (rest : List Nat) :
    readU64 (pre ++ (u64le v ++ rest)) pre.length = some (v % 18446744073709551616) := by
  unfold readU64
  rw [List.drop_left]
  simp only [u64le, List.cons_append]
  congr 1
  omega

theorem serializeTable_length (recs : List PackRec) (offs : List Nat)
    (h : offs.length = recs.length) :
    (serializeTable recs offs).length = tableSize recs := by
  induction recs generalizing offs with
  | nil => cases offs <;> simp [serializeTable, tableSize]
  | cons r rest ih =>
      cases offs with
      | nil => simp at h
      | cons o os =>
          simp only [serializeTable, tableSize, List.length_append, serializeEntry]
          rw [ih os (by simpa using h)]
          simp only [List.length_append, u32le_length, u64le_length] <;> omega

theorem decodedRecs_length (recs : List PackRec) (offs : List Nat)
    (h : offs.length = recs.length) :
    (decodedRecs recs offs).length = recs.length := by
  induction recs generalizing offs with
  | nil => simp [decodedRecs]
  | cons r rest ih =>
      cases offs with
      | nil => simp at h
      | cons o os => simp [decodedRecs, ih os (by simpa using h)]

theorem parseTable_serialize (recs : List PackRec) :
    ∀ (offs : List Nat) (pre blobs : List Nat) (tsize : Nat),
    offs.length = recs.length →
    (∀ r ∈ recs, r.path.length < 4294967296) →
    parseTable (pre ++ (serializeTable recs offs ++ blobs)) recs.length pre.length tsize =
      some (decodedRecs recs offs, tsize + tableSize recs) := by
  induction recs with
  | nil =>
      intro offs pre blobs tsize hlen _
      cases offs with
      | nil => simp [parseTable, serializeTable, decodedRecs, tableSize]
      | cons o os => simp at hlen
  | cons r rest ih =>
      intro offs pre blobs tsize hlen hwf
      cases offs with
      | nil => simp at hlen
      | cons o os =>
          have hplen : r.path.length < 4294967296 := hwf r (by simp)
          have hr : ∀ q ∈ rest, q.path.length < 4294967296 := by
            intro q hq
            exact hwf q (by simp [hq])
          have hos : os.length = rest.length := by simpa using hlen
          simp only [serializeTable, serializeEntry, List.length_cons, List.append_assoc]
          unfold parseTable
          rw [readU32_encode]
          have e1 : pre ++ (u32le r.path.length ++ (u64le r.size ++ (u64le o ++
              (u32le r.flags ++ (r.path ++ (serializeTable rest os ++ blobs)))))) =
              (pre ++ u32le r.path.length) ++ (u64le r.size ++ (u64le o ++
              (u32le r.flags ++ (r.path ++ (serializeTable rest os ++ blobs))))) := by
            simp [List.append_assoc]
          rw [e1]
          have l1 : pre.length + 4 = (pre ++ u32le r.path.length).length := by
            simp only [List.length_append, u32le_length] <;> omega
          rw [l1, readU64_encode]
          have e2 : (pre ++ u32le r.path.length) ++ (u64le r.size ++ (u64le o ++
              (u32le r.flags ++ (r.path ++ (serializeTable rest os ++ blobs))))) =
              ((pre ++ u32le r.path.length) ++ u64le r.size) ++ (u64le o ++
              (u32le r.flags ++ (r.path ++ (serializeTable rest os ++ blobs)))) := by
            simp [List.append_assoc]
          rw [e2]
          have l2 : pre.length + 12 = ((pre ++ u32le r.path.length) ++ u64le r.size).length := by
            simp only [List.length_append, u32le_length, u64le_length] <;> omega
          rw [l2, readU64_encode]
          have e3 : ((pre ++ u32le r.path.length) ++ u64le r.size) ++ (u64le o ++
              (u32le r.flags ++ (r.path ++ (serializeTable rest os ++ blobs)))) =
              (((pre ++ u32le r.path.length) ++ u64le r.size) ++ u64le o) ++
              (u32le r.flags ++ (r.path ++ (serializeTable rest os ++ blobs))) := by
            simp [List.append_assoc]
          rw [e3]
          have l3 : pre.length + 20 =
              (((pre ++ u32le r.path.length) ++ u64le r.size) ++ u64le o).length := by
            simp only [List.length_append, u32le_length, u64le_length] <;> omega
          rw [l3, readU32_encode]
          have hmod : r.path.length % 4294967296 = r.path.length := Nat.mod_eq_of_lt hplen
          simp only [hmod]
          by_cases hz : r.path.length = 0
          · rw [if_pos hz]
            have e4 : (((pre ++ u32le r.path.length) ++ u64le r.size) ++ u64le o) ++
                (u32le r.flags ++ (r.path ++ (serializeTable rest os ++ blobs))) =
                ((((pre ++ u32le r.path.length) ++ u64le r.size) ++ u64le o) ++
                  (u32le r.flags ++ r.path)) ++ (serializeTable rest os ++ blobs) := by
              simp [List.append_assoc]
            have l4 : pre.length + 24 =
                (((((pre ++ u32le r.path.length) ++ u64le r.size) ++ u64le o) ++
                  (u32le r.flags ++ r.path))).length := by
              simp only [List.length_append, u32le_length, u64le_length] <;> omega
            rw [e4, l4, ih os _ blobs (tsize + 24) hos hr]
            simp only []
            simp [decodedRecs, decodedRec, tableSize, hz] <;> omega
          · rw [if_neg hz]
            have hlenarc : ¬ ((((pre ++ u32le r.path.length) ++ u64le r.size) ++ u64le o) ++
                (u32le r.flags ++ (r.path ++ (serializeTable rest os ++ blobs)))).length <
                pre.length + 24 + r.path.length := by
              simp only [List.length_append, u32le_length, u64le_length] <;> omega
            rw [if_neg hlenarc]
            have harc : (((pre ++ u32le r.path.length) ++ u64le r.size) ++ u64le o) ++
                (u32le r.flags ++ (r.path ++ (serializeTable rest os ++ blobs))) =
                ((((pre ++ u32le r.path.length) ++ u64le r.size) ++ u64le o) ++ u32le r.flags)
                  ++ (r.path ++ (serializeTable rest os ++ blobs)) := by
              simp [List.append_assoc]
            have lpre24 : pre.length + 24 =
                ((((pre ++ u32le r.path.length) ++ u64le r.size) ++ u64le o) ++
                  u32le r.flags).length := by
              simp only [List.length_append, u32le_length, u64le_length] <;> omega
            have hdrop : ((((pre ++ u32le r.path.length) ++ u64le r.size) ++ u64le o) ++
                (u32le r.flags ++ (r.path ++ (serializeTable rest os ++ blobs)))).drop
                  (pre.length + 24) = r.path ++ (serializeTable rest os ++ blobs) := by
              rw [harc, lpre24, List.drop_left]
            rw [hdrop]
            have htake : (r.path ++ (serializeTable rest os ++ blobs)).take r.path.length =
                r.path := List.take_left r.path _
            rw [htake]
            have e5 : (((pre ++ u32le r.path.length) ++ u64le r.size) ++ u64le o) ++
                (u32le r.flags ++ (r.path ++ (serializeTable rest os ++ blobs))) =
                ((((pre ++ u32le r.path.length) ++ u64le r.size) ++ u64le o) ++
                  (u32le r.flags ++ r.path)) ++ (serializeTable rest os ++ blobs) := by
              simp [List.append_assoc]
            have l5 : pre.length + 24 + r.path.length =
                (((((pre ++ u32le r.path.length) ++ u64le r.size) ++ u64le o) ++
                  (u32le r.flags ++ r.path))).length := by
              simp only [List.length_append, u32le_length, u64le_length] <;> omega
            rw [e5, l5, ih os _ blobs (tsize + 24 + r.path.length) hos hr]
            simp only []
            simp [decodedRecs, decodedRec, tableSize, hz] <;> omega

end Arch

namespace Arch

open FSm

/-- Pointwise equality of parsed records on the path, size and flags
fields, the offset field left unconstrained. -/
def sameSPF : List FileRec → List FileRec → Prop
  | [], [] => True
  | r :: rs, q :: qs => r.path = q.path ∧ r.size = q.size ∧ r.flags = q.flags ∧ sameSPF rs qs
  | _, _ => False

theorem sameSPF_decoded (recs : List PackRec) :
    ∀ (offs1 offs2 : List Nat), offs1.length = recs.length → offs2.length = recs.length →
    sameSPF (decodedRecs recs offs1) (decodedRecs recs offs2) := by
  induction recs with
  | nil =>
      intro offs1 offs2 h1 h2
      cases offs1 <;> cases offs2 <;> simp_all [decodedRecs, sameSPF]
  | cons r rest ih =>
      intro offs1 offs2 h1 h2
      cases offs1 with
      | nil => simp at h1
      | cons o1 os1 =>
          cases offs2 with
          | nil => simp at h2
          | cons o2 os2 =>
              refine ⟨rfl, rfl, rfl, ?_⟩
              exact ih os1 os2 (by simpa using h1) (by simpa using h2)

theorem drop_of_ge (P blobs : List Nat) (k : Nat) (h : P.length ≤ k) :
    (P ++ blobs).drop k = blobs.drop (k - P.length) := by
  obtain ⟨m, rfl⟩ := Nat.exists_eq_add_of_le h
  simp [List.drop_append]

theorem extractLoop_swap (recs1 : List FileRec) :
    ∀ (recs2 : List FileRec) (arc1 arc2 : List Nat) (L : Nat) (dcomps : FPath)
      (fs : FS) (pos : Nat) (acc : List FPath),
    sameSPF recs1 recs2 →
    arc1.length = arc2.length →
    (∀ k, L ≤ k → arc1.drop k = arc2.drop k) →
    L ≤ pos →
    extractLoop arc1 dcomps fs recs1 pos acc = extractLoop arc2 dcomps fs recs2 pos acc := by
  induction recs1 with
  | nil =>
      intro recs2 arc1 arc2 L dcomps fs pos acc hspf _ _ _
      cases recs2 with
      | nil => simp [extractLoop]
      | cons q qs => simp [sameSPF] at hspf
  | cons r rs ih =>
      intro recs2 arc1 arc2 L dcomps fs pos acc hspf hlen hdrop hpos
      cases recs2 with
      | nil => simp [sameSPF] at hspf
      | cons q qs =>
          obtain ⟨hpath, hsize, hflags, hrest⟩ := hspf
          unfold extractLoop
          rw [← hpath, ← hsize, ← hflags]
          cases hp : r.path with
          | none =>
              exact ih qs arc1 arc2 L dcomps fs (pos + r.size) acc hrest hlen hdrop
                (le_trans hpos (Nat.le_add_right pos r.size))
          | some p =>
              simp only []
              cases hpd : ensure_parent_dirs fs (dcomps ++ p) with
              | none => rfl
              | some fs1 =>
                  simp only []
                  rw [hlen, hdrop pos hpos]
                  by_cases hsh : arc2.length < pos + r.size
                  · rw [if_pos hsh, if_pos hsh]
                  · rw [if_neg hsh, if_neg hsh]
                    by_cases hfl : r.flags % 2 = 1
                    · rw [if_pos hfl, if_pos hfl]
                      cases hu : unlinkOp fs1 (dcomps ++ p) with
                      | some f =>
                          simp only []
                          cases hsl : symlinkOp f
                              (cstr ((arc2.drop pos).take r.size)) (dcomps ++ p) with
                          | none => rfl
                          | some fs3 =>
                              exact ih qs arc1 arc2 L dcomps fs3 (pos + r.size) (acc ++ [p])
                                hrest hlen hdrop (le_trans hpos (Nat.le_add_right pos r.size))
                      | none =>
                          simp only []
                          cases hsl : symlinkOp fs1
                              (cstr ((arc2.drop pos).take r.size)) (dcomps ++ p) with
                          | none => rfl
                          | some fs3 =>
                              exact ih qs arc1 arc2 L dcomps fs3 (pos + r.size) (acc ++ [p])
                                hrest hlen hdrop (le_trans hpos (Nat.le_add_right pos r.size))
                    · rw [if_neg hfl, if_neg hfl]
                      cases hw : writeFileR fs1 (dcomps ++ p) ((arc2.drop pos).take r.size) with
                      | none => rfl
                      | some fr =>
                          exact ih qs arc1 arc2 L dcomps fr.1 (pos + r.size) (acc ++ [p]) hrest
                            hlen hdrop (le_trans hpos (Nat.le_add_right pos r.size))

theorem archiveBytes_assoc (recs : List PackRec) (offs blobs : List Nat) :
    archiveBytes recs offs blobs =
      (MAGICB ++ (u64le recs.length ++ serializeTable recs offs)) ++ blobs := by
  simp [archiveBytes, List.append_assoc]

theorem archive_take8 (recs : List PackRec) (offs blobs : List Nat) :
    (archiveBytes recs offs blobs).take 8 = MAGICB := by
  simp [archiveBytes, MAGICB, u64le]

theorem archive_count (recs : List PackRec) (offs blobs : List Nat) :
    readU64 (archiveBytes recs offs blobs) 8 =
      some (recs.length % 18446744073709551616) := by
  have h8 : (8 : Nat) = MAGICB.length := by simp [MAGICB]
  have e : archiveBytes recs offs blobs =
      MAGICB ++ (u64le recs.length ++ (serializeTable recs offs ++ blobs)) := by
    simp [archiveBytes, List.append_assoc]
  rw [e, h8, readU64_encode]

theorem archiveBytes_length (recs : List PackRec) (offs blobs : List Nat)
    (h : offs.length = recs.length) :
    (archiveBytes recs offs blobs).length = 16 + tableSize recs + blobs.length := by
  simp [archiveBytes, MAGICB, u64le, serializeTable_length recs offs h]
  omega

theorem do_unpack_ignores_offsets (recs : List PackRec) (offs1 offs2 blobs : List Nat)
    (destRaw : List Nat) (fs : FS)
    (h1 : offs1.length = recs.length) (h2 : offs2.length = recs.length)
    (hcnt : recs.length < 18446744073709551616)
    (hwf : ∀ r ∈ recs, r.path.length < 4294967296) :
    do_unpack (archiveBytes recs offs1 blobs) destRaw fs =
      do_unpack (archiveBytes recs offs2 blobs) destRaw fs := by
  unfold do_unpack
  cases hE : ensure_destdir fs (destComps destRaw) with
  | none => rfl
  | some fs1 =>
      have hc : recs.length % 18446744073709551616 = recs.length := Nat.mod_eq_of_lt hcnt
      simp only [archive_take8, archive_count, eq_self_iff_true, if_true, hc]
      by_cases hz : recs.length = 0
      · rw [if_pos hz, if_pos hz]
      · rw [if_neg hz, if_neg hz]
        have hpre : (16 : Nat) = (MAGICB ++ u64le recs.length).length := by
          simp [MAGICB, u64le]
        have eo : ∀ offs : List Nat,
            archiveBytes recs offs blobs =
              (MAGICB ++ u64le recs.length) ++ (serializeTable recs offs ++ blobs) := by
          intro offs
          simp [archiveBytes, List.append_assoc]
        have hp1 : parseTable (archiveBytes recs offs1 blobs) recs.length 16 0 =
            some (decodedRecs recs offs1, 0 + tableSize recs) := by
          rw [eo offs1, hpre]
          exact parseTable_serialize recs offs1 _ blobs 0 h1 hwf
        have hp2 : parseTable (archiveBytes recs offs2 blobs) recs.length 16 0 =
            some (decodedRecs recs offs2, 0 + tableSize recs) := by
          rw [eo offs2, hpre]
          exact parseTable_serialize recs offs2 _ blobs 0 h2 hwf
        rw [hp1, hp2]
        simp only []
        cases hw : writeFileR fs1 (destComps destRaw ++ [manifestName]) [] with
        | none => rfl
        | some fm =>
            simp only []
            have hswap : extractLoop (archiveBytes recs offs1 blobs) (destComps destRaw)
                fm.1 (decodedRecs recs offs1) (16 + (0 + tableSize recs)) [] =
                extractLoop (archiveBytes recs offs2 blobs) (destComps destRaw)
                fm.1 (decodedRecs recs offs2) (16 + (0 + tableSize recs)) [] := by
              apply extractLoop_swap (decodedRecs recs offs1) (decodedRecs recs offs2)
                  (archiveBytes recs offs1 blobs) (archiveBytes recs offs2 blobs)
                  (16 + tableSize recs)
              · exact sameSPF_decoded recs offs1 offs2 h1 h2
              · rw [archiveBytes_length recs offs1 blobs h1,
                  archiveBytes_length recs offs2 blobs h2]
              · intro k hk
                have hL1 : (MAGICB ++ (u64le recs.length ++ serializeTable recs offs1)).length =
                    16 + tableSize recs := by
                  simp [MAGICB, u64le, serializeTable_length recs offs1 h1]
                  omega
                have hL2 : (MAGICB ++ (u64le recs.length ++ serializeTable recs offs2)).length =
                    16 + tableSize recs := by
                  simp [MAGICB, u64le, serializeTable_length recs offs2 h2]
                  omega
                rw [archiveBytes_assoc recs offs1 blobs, archiveBytes_assoc recs offs2 blobs,
                  drop_of_ge _ _ k (by omega), drop_of_ge _ _ k (by omega), hL1, hL2]
              · omega
            rw [hswap]

end Arch

namespace Arch

open FSm

/-- The default record used by list indexing in offset lemmas. -/
def noRec : PackRec := { path := [], size := 0, flags := 0 }

theorem assignOffsets_head (recs : List PackRec) (cur : Nat) (h : recs ≠ []) :
    (assignOffsets recs cur).getD 0 0 = cur := by
  cases recs with
  | nil => exact absurd rfl h
  | cons r rest => simp [assignOffsets]

theorem assignOffsets_step (recs : List PackRec) :
    ∀ (cur i : Nat), i + 1 < recs.length →
    (assignOffsets recs cur).getD (i + 1) 0 =
      (assignOffsets recs cur).getD i 0 + (recs.getD i noRec).size := by
  induction recs with
  | nil =>
      intro cur i h
      simp at h
  | cons r rest ih =>
      intro cur i h
      cases i with
      | zero =>
          have hne : rest ≠ [] := by
            intro he
            rw [he] at h
            simp at h
          simp only [assignOffsets, List.getD_cons_succ, List.getD_cons_zero]
          exact assignOffsets_head rest (cur + r.size) hne
      | succ j =>
          have hj : j + 1 < rest.length := by
            simp at h
            omega
          simp only [assignOffsets, List.getD_cons_succ]
          exact ih (cur + r.size) j hj

theorem packOffsets_head (recs : List PackRec) (h : recs ≠ []) :
    (packOffsets recs).getD 0 0 = 16 + tableSize recs :=
  assignOffsets_head recs (16 + tableSize recs) h

theorem packOffsets_step (recs : List PackRec) (i : Nat) (h : i + 1 < recs.length) :
    (packOffsets recs).getD (i + 1) 0 =
      (packOffsets recs).getD i 0 + (recs.getD i noRec).size :=
  assignOffsets_step recs (16 + tableSize recs) i h

theorem do_unpack_empty_archive (rest destRaw : List Nat) (fs : FS) :
    do_unpack (MAGICB ++ (u64le 0 ++ rest)) destRaw fs =
      ensure_destdir fs (destComps destRaw) := by
  unfold do_unpack
  cases hE : ensure_destdir fs (destComps destRaw) with
  | none => rfl
  | some fs1 =>
      have ht : (MAGICB ++ (u64le 0 ++ rest)).take 8 = MAGICB := by
        simp [MAGICB, u64le]
      have h8 : (8 : Nat) = MAGICB.length := by simp [MAGICB]
      have hr : readU64 (MAGICB ++ (u64le 0 ++ rest)) 8 = some 0 := by
        rw [h8, readU64_encode]
      simp only [ht, hr, eq_self_iff_true, if_true]

end Arch

section ArchTests2

/-- A one-entry archive: the single byte file a, empty contents. -/
def oneArchive : List Nat :=
  Arch.MAGICB ++ Arch.u64le 1 ++
  (Arch.u32le 1 ++ Arch.u64le 0 ++ Arch.u64le 0 ++ Arch.u32le 0 ++ [97])

/-- Unpacking a one-entry archive writes both the file and the
manifest listing it. -/
example :
    (Arch.do_unpack oneArchive destD [([compD], FSm.Node.dir)]).map
        (fun f => (FSm.lookup f [compD, Arch.manifestName], FSm.lookup f [compD, [97]])) =
      some (some (FSm.Node.file [97, 10]), some (FSm.Node.file [])) := by
  decide

end ArchTests2

namespace Arch

theorem sanLoop_good (toks : List (List Nat)) :
    ∀ (acc out : List (List Nat)),
    (∀ c ∈ acc, c ≠ [46, 46] ∧ c ≠ [46] ∧ c ≠ []) →
    sanLoop toks acc = some out →
    ∀ c ∈ out, c ≠ [46, 46] ∧ c ≠ [46] ∧ c ≠ [] := by
  induction toks with
  | nil =>
      intro acc out hacc hout
      unfold sanLoop at hout
      by_cases he : acc = []
      · rw [if_pos he] at hout
        exact absurd hout (by simp)
      · rw [if_neg he] at hout
        cases hout
        exact hacc
  | cons c rest ih =>
      intro acc out hacc hout
      unfold sanLoop at hout
      by_cases h1 : 4096 ≤ c.length
      · rw [if_pos h1] at hout
        exact absurd hout (by simp)
      · rw [if_neg h1] at hout
        by_cases h2 : c = []
        · rw [if_pos h2] at hout
          exact ih acc out hacc hout
        · rw [if_neg h2] at hout
          by_cases h3 : c = [46]
          · rw [if_pos h3] at hout
            exact ih acc out hacc hout
          · rw [if_neg h3] at hout
            by_cases h4 : c = [46, 46]
            · rw [if_pos h4] at hout
              cases acc with
              | nil =>
                  simp only [] at hout
                  exact absurd hout (by simp)
              | cons a as =>
                  simp only [] at hout
                  refine ih (a :: as).dropLast out ?_ hout
                  intro x hx
                  exact hacc x (List.dropLast_sublist (a :: as) |>.subset hx)
            · rw [if_neg h4] at hout
              by_cases h5 : 2048 ≤ acc.length + 1
              · rw [if_pos h5] at hout
                exact absurd hout (by simp)
              · rw [if_neg h5] at hout
                refine ih (acc ++ [c]) out ?_ hout
                intro x hx
                rcases List.mem_append.mp hx with hxa | hxc
                · exact hacc x hxa
                · have : x = c := by simpa using hxc
                  subst this
                  exact ⟨h4, h3, h2⟩

theorem sanitize_good (raw : List Nat) (out : List (List Nat))
    (h : sanitize_relpath raw = some out) :
    ∀ c ∈ out, c ≠ [46, 46] ∧ c ≠ [46] ∧ c ≠ [] := by
  unfold sanitize_relpath at h
  cases hs : sanLoop (splitSlash (cstr raw)) [] with
  | none =>
      rw [hs] at h
      exact absurd h (by simp)
  | some parts =>
      rw [hs] at h
      simp only [] at h
      by_cases ht : parts.foldl (fun a c => a + c.length) 0 + (parts.length - 1) = 0 ∨
          4096 ≤ parts.foldl (fun a c => a + c.length) 0 + (parts.length - 1)
      · rw [if_pos ht] at h
        exact absurd h (by simp)
      · rw [if_neg ht] at h
        cases h
        exact sanLoop_good (splitSlash (cstr raw)) [] out (by simp) hs

theorem sanitize_leading_dotdot (rest : List Nat) :
    sanitize_relpath (46 :: 46 :: 47 :: rest) = none := by
  simp [sanitize_relpath, cstr, splitSlash, splitSlashAux, sanLoop]

end Arch

namespace PM

theorem normLoop_dotdot (toks : List (List Nat)) :
    ∀ acc, [46, 46] ∈ toks → normLoop toks acc = none := by
  induction toks with
  | nil =>
      intro acc h
      exact absurd h (by simp)
  | cons tok rest ih =>
      intro acc h
      unfold normLoop
      by_cases hb : tok = [] ∨ tok = [46] ∨ tok = [46, 46]
      · rw [if_pos hb]
      · rw [if_neg hb]
        have hm : [46, 46] ∈ rest := by
          rcases List.mem_cons.mp h with he | hm
          · exact absurd he.symm (by simp_all)
          · exact hm
        by_cases hl : 4096 < acc.foldl (fun a c => a + c.length) 0 + (acc.length - 1) +
            (if acc = [] then 0 else 1) + tok.length + 1
        · rw [if_pos hl]
        · rw [if_neg hl]
          exact ih (acc ++ [tok]) hm

theorem normalize_dotdot (src : List Nat) (h : [46, 46] ∈ splitSlash src) :
    normalize_relpath src = none := by
  cases src with
  | nil => simp [splitSlash, splitSlashAux] at h
  | cons b rest =>
      unfold normalize_relpath
      simp only []
      by_cases hb : b = 47
      · rw [if_pos hb]
      · rw [if_neg hb]
        refine normLoop_dotdot _ _ ?_
        exact List.mem_filter.mpr ⟨h, by simp⟩

end PM

namespace SHA

/-- Per-byte roundtrip of the hex codec, lowercase: both rendered
characters decode, and recombining them restores the byte. -/
theorem hexByte_round : ∀ b : Nat, b < 256 →
    ¬ (hexVal (hexchars.getD ((b >>> 4) &&& 15) 0) = 255 ∨
       hexVal (hexchars.getD (b &&& 15) 0) = 255) ∧
    (hexVal (hexchars.getD ((b >>> 4) &&& 15) 0) <<< 4 |||
       hexVal (hexchars.getD (b &&& 15) 0)) = b := by
  decide

/-- Per-byte roundtrip of the hex codec after uppercasing. -/
theorem hexByte_round_upper : ∀ b : Nat, b < 256 →
    ¬ (hexVal (if 97 ≤ hexchars.getD ((b >>> 4) &&& 15) 0 ∧
          hexchars.getD ((b >>> 4) &&& 15) 0 ≤ 122 then
          hexchars.getD ((b >>> 4) &&& 15) 0 - 32 else
          hexchars.getD ((b >>> 4) &&& 15) 0) = 255 ∨
       hexVal (if 97 ≤ hexchars.getD (b &&& 15) 0 ∧
          hexchars.getD (b &&& 15) 0 ≤ 122 then
          hexchars.getD (b &&& 15) 0 - 32 else
          hexchars.getD (b &&& 15) 0) = 255) ∧
    (hexVal (if 97 ≤ hexchars.getD ((b >>> 4) &&& 15) 0 ∧
          hexchars.getD ((b >>> 4) &&& 15) 0 ≤ 122 then
          hexchars.getD ((b >>> 4) &&& 15) 0 - 32 else
          hexchars.getD ((b >>> 4) &&& 15) 0) <<< 4 |||
       hexVal (if 97 ≤ hexchars.getD (b &&& 15) 0 ∧
          hexchars.getD (b &&& 15) 0 ≤ 122 then
          hexchars.getD (b &&& 15) 0 - 32 else
          hexchars.getD (b &&& 15) 0)) = b := by
  decide

theorem hexPairs_to_hex (d : List Nat) (h : ∀ b ∈ d, b < 256) :
    hexPairs (sha256_to_hex d) = some d := by
  induction d with
  | nil => simp [sha256_to_hex, hexPairs]
  | cons b rest ih =>
      have hb : b < 256 := h b (by simp)
      have hr : ∀ x ∈ rest, x < 256 := fun x hx => h x (by simp [hx])
      have hcore := hexByte_round b hb
      unfold sha256_to_hex hexPairs
      rw [if_neg hcore.1, ih hr]
      simp only [Option.map_some']
      rw [hcore.2]

theorem hexPairs_to_hex_upper (d : List Nat) (h : ∀ b ∈ d, b < 256) :
    hexPairs (upperHex (sha256_to_hex d)) = some d := by
  induction d with
  | nil => simp [sha256_to_hex, upperHex, hexPairs]
  | cons b rest ih =>
      have hb : b < 256 := h b (by simp)
      have hr : ∀ x ∈ rest, x < 256 := fun x hx => h x (by simp [hx])
      have hcore := hexByte_round_upper b hb
      unfold sha256_to_hex
      unfold upperHex
      simp only [List.map_cons]
      unfold hexPairs
      rw [if_neg hcore.1]
      have ihm : hexPairs (upperHex (sha256_to_hex rest)) = some rest := ih hr
      rw [show (sha256_to_hex rest).map
            (fun c => if 97 ≤ c ∧ c ≤ 122 then c - 32 else c) =
          upperHex (sha256_to_hex rest) from rfl, ihm]
      simp only [Option.map_some']
      rw [hcore.2]

theorem sha256_to_hex_length (d : List Nat) :
    (sha256_to_hex d).length = 2 * d.length := by
  induction d with
  | nil => simp [sha256_to_hex]
  | cons b rest ih => simp [sha256_to_hex, ih]; omega

theorem hex_to_bin_to_hex (d : List Nat) (h : ∀ b ∈ d, b < 256) (hl : d.length = 32) :
    hex_to_bin (sha256_to_hex d) 32 = some d ∧
    hex_to_bin (upperHex (sha256_to_hex d)) 32 = some d := by
  have hlen : (sha256_to_hex d).length = 64 := by
    rw [sha256_to_hex_length, hl]
  have hulen : (upperHex (sha256_to_hex d)).length = 64 := by
    simp [upperHex, hlen]
  constructor
  · unfold hex_to_bin
    rw [hlen]
    norm_num
    exact hexPairs_to_hex d h
  · unfold hex_to_bin
    rw [hulen]
    norm_num
    exact hexPairs_to_hex_upper d h

end SHA

namespace FSm

theorem lookup_cons (e : FPath × Node) (l : FS) (q : FPath) :
    lookup (e :: l) q = if e.1 = q then some e.2 else lookup l q := rfl

theorem lookup_none_no_entry (fs : FS) (q : FPath) (h : lookup fs q = none) :
    ∀ e ∈ fs, e.1 ≠ q := by
  induction fs with
  | nil => intro e he; simp at he
  | cons x l ih =>
      intro e he
      unfold lookup at h
      by_cases hx : x.1 = q
      · rw [if_pos hx] at h
        exact absurd h (by simp)
      · rw [if_neg hx] at h
        rcases List.mem_cons.mp he with he1 | he2
        · rw [he1]; exact hx
        · exact ih h e he2

theorem removeNode_cons (x : FPath × Node) (l : FS) (p : FPath) :
    removeNode (x :: l) p = if x.1 = p then removeNode l p else x :: removeNode l p := rfl

theorem lookup_removeNode (fs : FS) (p q : FPath) :
    lookup (removeNode fs p) q = if q = p then none else lookup fs q := by
  induction fs with
  | nil => simp [removeNode, lookup]
  | cons x l ih =>
      rw [removeNode_cons]
      by_cases hx : x.1 = p
      · rw [if_pos hx, ih]
        by_cases hq : q = p
        · rw [if_pos hq, if_pos hq]
        · rw [if_neg hq, if_neg hq, lookup_cons,
            if_neg (show ¬ x.1 = q from by rw [hx]; exact fun he => hq he.symm)]
      · rw [if_neg hx, lookup_cons, lookup_cons, ih]
        by_cases hxq : x.1 = q
        · rw [if_pos hxq, if_pos hxq,
            if_neg (show ¬ q = p from fun he => hx (hxq.trans he))]
        · rw [if_neg hxq]
          by_cases hq : q = p
          · rw [if_pos hq, if_pos hq]
          · rw [if_neg hq, if_neg hq, if_neg hxq]

theorem lookup_setNode (fs : FS) (p : FPath) (n : Node) (q : FPath) :
    lookup (setNode fs p n) q = if q = p then some n else lookup fs q := by
  have e : setNode fs p n = (p, n) :: removeNode fs p := rfl
  rw [e, lookup_cons, lookup_removeNode]
  by_cases hq : q = p
  · rw [if_pos (show (p, n).1 = q from hq.symm), if_pos hq]
  · rw [if_neg (show ¬ (p, n).1 = q from fun he => hq he.symm), if_neg hq, if_neg hq]

theorem pathLe_iff (p : FPath) : ∀ q, pathLe p q = true ↔ ∃ r, q = p ++ r := by
  induction p with
  | nil =>
      intro q
      simp [pathLe]
  | cons a as ih =>
      intro q
      cases q with
      | nil =>
          simp [pathLe]
      | cons b bs =>
          unfold pathLe
          by_cases hab : a = b
          · rw [if_pos hab]
            rw [ih bs]
            constructor
            · rintro ⟨r, rfl⟩
              exact ⟨r, by rw [hab]; rfl⟩
            · rintro ⟨r, hr⟩
              refine ⟨r, ?_⟩
              have := hr
              simp [hab] at this
              simp [this]
          · rw [if_neg hab]
            constructor
            · intro h
              exact absurd h (by simp)
            · rintro ⟨r, hr⟩
              simp at hr
              exact absurd hr.1.symm hab

theorem pathLe_append_self (p r : FPath) : pathLe p (p ++ r) = true :=
  (pathLe_iff p (p ++ r)).mpr ⟨r, rfl⟩

theorem pathLe_refl (p : FPath) : pathLe p p = true := by
  have := pathLe_append_self p []
  simpa using this

theorem pathLe_length (p q : FPath) (h : pathLe p q = true) : p.length ≤ q.length := by
  obtain ⟨r, rfl⟩ := (pathLe_iff p q).mp h
  simp

theorem pathLe_false_of_longer (p q : FPath) (h : q.length < p.length) :
    pathLe p q = false := by
  by_cases hp : pathLe p q = true
  · exact absurd (pathLe_length p q hp) (by omega)
  · simpa using hp

theorem removeSubtree_cons (x : FPath × Node) (l : FS) (t : FPath) :
    removeSubtree (x :: l) t =
      if pathLe t x.1 then removeSubtree l t else x :: removeSubtree l t := rfl

theorem lookup_removeSubtree (fs : FS) (t q : FPath) :
    lookup (removeSubtree fs t) q = if pathLe t q = true then none else lookup fs q := by
  induction fs with
  | nil => simp [removeSubtree, lookup]
  | cons x l ih =>
      rw [removeSubtree_cons]
      by_cases hx : pathLe t x.1 = true
      · rw [if_pos hx, ih]
        by_cases hq : pathLe t q = true
        · rw [if_pos hq, if_pos hq]
        · rw [if_neg hq, if_neg hq, lookup_cons,
            if_neg (show ¬ x.1 = q from fun he => hq (he ▸ hx))]
      · rw [if_neg hx, lookup_cons, lookup_cons, ih]
        by_cases hxq : x.1 = q
        · rw [if_pos hxq, if_pos hxq,
            if_neg (show ¬ pathLe t q = true from fun hc => hx (by rw [hxq]; exact hc))]
        · rw [if_neg hxq]
          by_cases hq : pathLe t q = true
          · rw [if_pos hq, if_pos hq]
          · rw [if_neg hq, if_neg hq, if_neg hxq]

theorem removeSubtree_removeNode (fs : FS) (t p : FPath) (h : pathLe t p = true) :
    removeSubtree (removeNode fs p) t = removeSubtree fs t := by
  induction fs with
  | nil => simp [removeNode, removeSubtree]
  | cons x l ih =>
      rw [removeNode_cons]
      by_cases hx : x.1 = p
      · rw [if_pos hx, ih, removeSubtree_cons,
          if_pos (show pathLe t x.1 = true from by rw [hx]; exact h)]
      · rw [if_neg hx, removeSubtree_cons, removeSubtree_cons]
        by_cases ht : pathLe t x.1 = true
        · rw [if_pos ht, if_pos ht, ih]
        · rw [if_neg ht, if_neg ht, ih]

theorem removeSubtree_setNode (fs : FS) (t p : FPath) (n : Node) (h : pathLe t p = true) :
    removeSubtree (setNode fs p n) t = removeSubtree fs t := by
  have e : setNode fs p n = (p, n) :: removeNode fs p := rfl
  rw [e, removeSubtree_cons, if_pos (show pathLe t (p, n).1 = true from h),
    removeSubtree_removeNode fs t p h]

theorem removeSubtree_id (fs : FS) (t : FPath) (h : ∀ e ∈ fs, pathLe t e.1 = false) :
    removeSubtree fs t = fs := by
  induction fs with
  | nil => simp [removeSubtree]
  | cons x l ih =>
      rw [removeSubtree_cons, if_neg (by rw [h x (by simp)]; simp),
        ih (fun e he => h e (by simp [he]))]

theorem lookup_rmdirOp_other (fs : FS) (p q : FPath) (h : q ≠ p) :
    lookup (rmdirOp fs p) q = lookup fs q := by
  unfold rmdirOp
  cases lookup fs p with
  | none => rfl
  | some n =>
      cases n with
      | dir =>
          by_cases ha : anyUnder fs p
          · rw [if_pos ha]
          · rw [if_neg ha, lookup_removeNode, if_neg h]
      | file d => rfl
      | symlink t => rfl

theorem removeSubtree_rmdirOp (fs : FS) (t p : FPath) (h : pathLe t p = true) :
    removeSubtree (rmdirOp fs p) t = removeSubtree fs t := by
  unfold rmdirOp
  cases lookup fs p with
  | none => rfl
  | some n =>
      cases n with
      | dir =>
          by_cases ha : anyUnder fs p
          · rw [if_pos ha]
          · rw [if_neg ha]
            exact removeSubtree_removeNode fs t p h
      | file d => rfl
      | symlink tg => rfl

end FSm

namespace FSm

/-- Every nonempty prefix of p is a directory in fs. -/
def chainDirs (fs : FS) (p : FPath) : Prop :=
  ∀ i, i < p.length → lookup fs (p.take (i + 1)) = some Node.dir

theorem take_dropLast (p : FPath) (i : Nat) (h : i < p.length) :
    (p.take (i + 1)).dropLast = p.take i := by
  rw [List.dropLast_eq_take, List.take_take, List.length_take]
  congr 1
  omega

theorem isDirAt_true_iff (fs : FS) (p : FPath) :
    isDirAt fs p = true ↔ (p = [] ∨ lookup fs p = some Node.dir) := by
  cases p with
  | nil => simp [isDirAt]
  | cons a as => simp [isDirAt]

theorem take_nonempty (p : FPath) (i : Nat) (h : i < p.length) :
    p.take (i + 1) ≠ [] := by
  intro he
  have : (p.take (i + 1)).length = 0 := by rw [he]; rfl
  rw [List.length_take] at this
  omega

theorem chainDirs_isDirAt (fs : FS) (p : FPath) (h : chainDirs fs p) :
    isDirAt fs p = true := by
  cases hp : p with
  | nil => simp [isDirAt]
  | cons a as =>
      rw [isDirAt_true_iff]
      right
      have hl : p.length - 1 < p.length := by rw [hp]; simp
      have := h (p.length - 1) hl
      rw [show p.length - 1 + 1 = p.length from by rw [hp]; simp, List.take_length] at this
      rw [← hp]
      exact this

theorem chainDirs_setNode_longer (fs : FS) (p : FPath) (q : FPath) (n : Node)
    (h : chainDirs fs p) (hq : p.length < q.length) :
    chainDirs (setNode fs q n) p := by
  intro i hi
  rw [lookup_setNode]
  rw [if_neg ?_]
  · exact h i hi
  · intro he
    have : (p.take (i + 1)).length = q.length := by rw [he]
    rw [List.length_take] at this
    omega

theorem mkdirOp_of_exists (fs : FS) (p : FPath) (hne : p ≠ [])
    (hpar : isDirAt fs p.dropLast = true) (n : Node) (hp : lookup fs p = some n) :
    mkdirOp fs p = MkdirRes.eexist := by
  cases p with
  | nil => exact absurd rfl hne
  | cons a as =>
      unfold mkdirOp
      simp only []
      rw [if_pos hpar, hp]

theorem mkdirOp_create (fs : FS) (p : FPath) (hne : p ≠ [])
    (hpar : isDirAt fs p.dropLast = true) (hp : lookup fs p = none) :
    mkdirOp fs p = MkdirRes.made (setNode fs p Node.dir) := by
  cases p with
  | nil => exact absurd rfl hne
  | cons a as =>
      unfold mkdirOp
      simp only []
      rw [if_pos hpar, hp]

theorem mkdirsList_noop (fs : FS) (qs : List FPath)
    (h : ∀ q ∈ qs, mkdirOp fs q = MkdirRes.eexist) :
    mkdirsList fs qs = some fs := by
  induction qs with
  | nil => rfl
  | cons q rest ih =>
      unfold mkdirsList
      rw [h q (by simp)]
      exact ih (fun x hx => h x (by simp [hx]))

theorem mkdirsList_noop_of_chain (fs : FS) (p : FPath) (h : chainDirs fs p) :
    mkdirsList fs (prefixesOf p) = some fs := by
  apply mkdirsList_noop
  intro q hq
  unfold prefixesOf at hq
  rcases List.mem_map.mp hq with ⟨i, hi, rfl⟩
  have hil : i < p.length := List.mem_range.mp hi
  refine mkdirOp_of_exists fs _ (take_nonempty p i hil) ?_ Node.dir (h i hil)
  rw [take_dropLast p i hil]
  by_cases hiz : i = 0
  · rw [hiz]
    simp [isDirAt]
  · rw [isDirAt_true_iff]
    right
    have := h (i - 1) (by omega)
    rw [show i - 1 + 1 = i from by omega] at this
    exact this

theorem mkdirsList_cons (fs : FS) (q : FPath) (rest : List FPath) :
    mkdirsList fs (q :: rest) =
      match mkdirOp fs q with
      | MkdirRes.made f => mkdirsList f rest
      | MkdirRes.eexist => mkdirsList fs rest
      | MkdirRes.failed => none := rfl

theorem mkdirsList_append (fs : FS) (qs1 qs2 : List FPath) :
    mkdirsList fs (qs1 ++ qs2) =
      match mkdirsList fs qs1 with
      | none => none
      | some f => mkdirsList f qs2 := by
  induction qs1 generalizing fs with
  | nil => rfl
  | cons q rest ih =>
      rw [List.cons_append, mkdirsList_cons, mkdirsList_cons]
      cases mkdirOp fs q with
      | made f2 => exact ih f2
      | eexist => exact ih fs
      | failed => rfl

theorem prefixesOf_append (base cs : FPath) :
    prefixesOf (base ++ cs) =
      prefixesOf base ++ (List.range cs.length).map (fun j => base ++ cs.take (j + 1)) := by
  unfold prefixesOf
  rw [List.length_append, List.range_add, List.map_append, List.map_map]
  congr 1
  · apply List.map_congr_left
    intro i hi
    have : i < base.length := List.mem_range.mp hi
    rw [List.take_append_of_le_length (by omega)]
  · apply List.map_congr_left
    intro j hj
    simp only [Function.comp]
    rw [show base.length + j + 1 = base.length + (j + 1) from by omega, List.take_append]

theorem mkdirsInner (cs : List Comp) : ∀ (fs : FS) (base : FPath),
    isDirAt fs base = true →
    (∀ j, j < cs.length → lookup fs (base ++ cs.take (j + 1)) = some Node.dir ∨
        lookup fs (base ++ cs.take (j + 1)) = none) →
    ∃ fs2, mkdirsList fs ((List.range cs.length).map (fun j => base ++ cs.take (j + 1))) =
        some fs2 ∧
      (∀ q, (∀ j, j < cs.length → q ≠ base ++ cs.take (j + 1)) →
          lookup fs2 q = lookup fs q) ∧
      (∀ j, j < cs.length → lookup fs2 (base ++ cs.take (j + 1)) = some Node.dir) := by
  induction cs with
  | nil =>
      intro fs base _ _
      exact ⟨fs, rfl, fun q _ => rfl, fun j hj => by simp at hj⟩
  | cons c rest ih =>
      intro fs base hbase hfree
      have hlist : (List.range (c :: rest).length).map
            (fun j => base ++ (c :: rest).take (j + 1)) =
          (base ++ [c]) :: (List.range rest.length).map
            (fun j => (base ++ [c]) ++ rest.take (j + 1)) := by
        rw [List.length_cons, List.range_succ_eq_map, List.map_cons, List.map_map]
        congr 1
        apply List.map_congr_left
        intro j _
        simp only [Function.comp]
        rw [List.take_succ_cons]
        simp [List.append_assoc]
      rw [hlist]
      have hstep : ∀ (fsx : FS), lookup fsx (base ++ [c]) = some Node.dir →
          (∀ j, j < rest.length →
              lookup fsx ((base ++ [c]) ++ rest.take (j + 1)) = some Node.dir ∨
              lookup fsx ((base ++ [c]) ++ rest.take (j + 1)) = none) →
          (∀ q, (∀ j, j < (c :: rest).length → q ≠ base ++ (c :: rest).take (j + 1)) →
              lookup fsx q = lookup fs q) →
          ∃ fs2, mkdirsList fsx ((List.range rest.length).map
              (fun j => (base ++ [c]) ++ rest.take (j + 1))) = some fs2 ∧
            (∀ q, (∀ j, j < (c :: rest).length → q ≠ base ++ (c :: rest).take (j + 1)) →
                lookup fs2 q = lookup fs q) ∧
            (∀ j, j < (c :: rest).length →
                lookup fs2 (base ++ (c :: rest).take (j + 1)) = some Node.dir) := by
        intro fsx hdir hrest hpres
        obtain ⟨fs2, hm, hp2, hd2⟩ := ih fsx (base ++ [c])
          ((isDirAt_true_iff fsx (base ++ [c])).mpr (Or.inr hdir)) hrest
        refine ⟨fs2, hm, ?_, ?_⟩
        · intro q hq
          rw [hp2 q ?_, hpres q hq]
          intro j hj he
          refine hq (j + 1) (by simpa using Nat.succ_lt_succ hj) ?_
          rw [he, List.take_succ_cons]
          simp [List.append_assoc]
        · intro j hj
          cases j with
          | zero =>
              rw [show base ++ (c :: rest).take 1 = base ++ [c] from by simp]
              rw [hp2 (base ++ [c]) ?_]
              · exact hdir
              · intro j2 hj2 he
                have h2 : (base ++ [c]) ++ [] = (base ++ [c]) ++ rest.take (j2 + 1) := by
                  simpa using he
                have htk : rest.take (j2 + 1) = [] := (List.append_cancel_left h2).symm
                have hlt : (rest.take (j2 + 1)).length = 0 := by rw [htk]; rfl
                rw [List.length_take] at hlt
                omega
          | succ j2 =>
              have hj2 : j2 < rest.length := by simpa using hj
              have := hd2 j2 hj2
              rw [show base ++ (c :: rest).take (j2 + 1 + 1) =
                  (base ++ [c]) ++ rest.take (j2 + 1) from by
                rw [List.take_succ_cons]; simp [List.append_assoc]]
              exact this
      unfold mkdirsList
      rcases hfree 0 (by simp) with hdir | hnone
      · rw [show base ++ (c :: rest).take 1 = base ++ [c] from by simp] at hdir
        rw [mkdirOp_of_exists fs (base ++ [c])
            (by simp) (by rw [List.dropLast_concat]; exact hbase) Node.dir hdir]
        have hrest : ∀ j, j < rest.length →
            lookup fs ((base ++ [c]) ++ rest.take (j + 1)) = some Node.dir ∨
            lookup fs ((base ++ [c]) ++ rest.take (j + 1)) = none := by
          intro j hj
          have := hfree (j + 1) (by simpa using Nat.succ_lt_succ hj)
          rw [List.take_succ_cons] at this
          simpa [List.append_assoc] using this
        exact hstep fs hdir hrest (fun q _ => rfl)
      · rw [show base ++ (c :: rest).take 1 = base ++ [c] from by simp] at hnone
        rw [mkdirOp_create fs (base ++ [c])
            (by simp) (by rw [List.dropLast_concat]; exact hbase) hnone]
        have hdir2 : lookup (setNode fs (base ++ [c]) Node.dir) (base ++ [c]) =
            some Node.dir := by
          rw [lookup_setNode, if_pos rfl]
        have hrest : ∀ j, j < rest.length →
            lookup (setNode fs (base ++ [c]) Node.dir)
              ((base ++ [c]) ++ rest.take (j + 1)) = some Node.dir ∨
            lookup (setNode fs (base ++ [c]) Node.dir)
              ((base ++ [c]) ++ rest.take (j + 1)) = none := by
          intro j hj
          rw [lookup_setNode, if_neg ?_]
          · have := hfree (j + 1) (by simpa using Nat.succ_lt_succ hj)
            rw [List.take_succ_cons] at this
            simpa [List.append_assoc] using this
          · intro he
            have : ((base ++ [c]) ++ rest.take (j + 1)).length = (base ++ [c]).length := by
              rw [he]
            rw [List.length_append, List.length_take] at this
            have hmin : min (j + 1) rest.length = j + 1 := by omega
            rw [hmin] at this
            omega
        refine hstep (setNode fs (base ++ [c]) Node.dir) hdir2 hrest ?_
        intro q hq
        have hne : q ≠ base ++ [c] := by
          intro he
          exact hq 0 (by simp) (by rw [he]; simp)
        rw [lookup_setNode, if_neg hne]

end FSm

namespace FSm

theorem pathLe_trans (p q r : FPath) (h1 : pathLe p q = true) (h2 : pathLe q r = true) :
    pathLe p r = true := by
  obtain ⟨a, rfl⟩ := (pathLe_iff p q).mp h1
  obtain ⟨b, rfl⟩ := (pathLe_iff (p ++ a) r).mp h2
  rw [List.append_assoc]
  exact pathLe_append_self p (a ++ b)

theorem pathLe_eq_of_le_length (p q : FPath) (h : pathLe p q = true)
    (hl : q.length ≤ p.length) : p = q := by
  obtain ⟨r, rfl⟩ := (pathLe_iff p q).mp h
  rw [List.length_append] at hl
  have : r.length = 0 := by omega
  rw [List.length_eq_zero.mp this, List.append_nil]

theorem chainDirs_take (fs : FS) (p : FPath) (j : Nat) (h : chainDirs fs p) :
    chainDirs fs (p.take j) := by
  intro i hi
  rw [List.length_take] at hi
  rw [List.take_take]
  have hij : min (i + 1) j = i + 1 := by omega
  rw [hij]
  exact h i (by omega)

theorem chainDirs_snoc (fs : FS) (base : FPath) (c : Comp)
    (h : chainDirs fs base) (hc : lookup fs (base ++ [c]) = some Node.dir) :
    chainDirs fs (base ++ [c]) := by
  intro i hi
  rw [List.length_append] at hi
  simp only [List.length_cons, List.length_nil] at hi
  by_cases hib : i < base.length
  · rw [List.take_append_of_le_length (by omega)]
    exact h i hib
  · have hieq : i = base.length := by omega
    subst hieq
    rw [show base.length + 1 = base.length + (0 + 1) from by omega, List.take_append]
    simpa using hc

end FSm

namespace Store

open FSm

/-- The component store. -/
def storeC : Comp := [115, 116, 111, 114, 101]

/-- The component files. -/
def filesC : Comp := [102, 105, 108, 101, 115]

/-- The outcome of store_import_pkg_atomic: the C return code, the
filesystem afterwards, and the out_store_path written on success. -/
structure ImportResult where
  code : Int
  fs : FS
  storePath : Option FPath
deriving DecidableEq

/-- ensure_dir_p from store_manager.c: mkdir every prefix of the path,
tolerating EEXIST, failing on anything else. -/
def ensure_dir_p (fs : FS) (p : FPath) : Option FS :=
  mkdirsList fs (prefixesOf p)

/-- store_import_pkg_atomic from store_manager.c.  The unpacker and
tree validator are extern hooks in the source; here they are function
parameters (the unpacker returns a status and the new filesystem, the
validator is a read-only predicate).  expected_sha256 is accepted and,
as in the source, never consulted.  mkdtemp is modelled by the
caller-supplied fresh name tmpName; every cleanup is the single
non-recursive rmdir the source performs (rmdirOp refuses to remove a
non-empty directory, exactly as rmdir(2) does). -/
def store_import_pkg_atomic (fs : FS) (root : FPath) (name ver : Comp)
    (expected_sha256 : List Nat) (tmpName : Comp)
    (unpackHook : FS → FPath → Bool × FS)
    (validateHook : FS → FPath → Bool) : ImportResult :=
  match ensure_dir_p fs (root ++ [storeC]) with
  | none => ⟨-1, fs, none⟩
  | some fs1 =>
      match lookup fs1 (root ++ [storeC, tmpName]) with
      | some _ => ⟨-1, fs1, none⟩
      | none =>
          match ensure_dir_p (setNode fs1 (root ++ [storeC, tmpName]) Node.dir)
              (root ++ [storeC, tmpName]) with
          | none => ⟨-1, rmdirOp (setNode fs1 (root ++ [storeC, tmpName]) Node.dir)
              (root ++ [storeC, tmpName]), none⟩
          | some fs3 =>
              match ensure_dir_p fs3 ((root ++ [storeC, tmpName]) ++ [name, ver, filesC]) with
              | none => ⟨-1, rmdirOp fs3 (root ++ [storeC, tmpName]), none⟩
              | some fs4 =>
                  match unpackHook fs4 ((root ++ [storeC, tmpName]) ++ [name, ver, filesC]) with
                  | (false, fs5) => ⟨-1, rmdirOp fs5 (root ++ [storeC, tmpName]), none⟩
                  | (true, fs5) =>
                      if validateHook fs5 ((root ++ [storeC, tmpName]) ++ [name, ver, filesC])
                          = false then
                        ⟨-1, rmdirOp fs5 (root ++ [storeC, tmpName]), none⟩
                      else
                        match ensure_dir_p fs5 (root ++ [storeC, name]) with
                        | none => ⟨-1, rmdirOp fs5 (root ++ [storeC, tmpName]), none⟩
                        | some fs6 =>
                            match lookup fs6 (root ++ [storeC, name, ver]) with
                            | some _ =>
                                ⟨-1, rmdirOp (rmdirOp fs6
                                    ((root ++ [storeC, tmpName]) ++ [name, ver, filesC]))
                                  (root ++ [storeC, tmpName]), none⟩
                            | none =>
                                match renameOp fs6 ((root ++ [storeC, tmpName]) ++ [name, ver])
                                    (root ++ [storeC, name, ver]) with
                                | none => ⟨-1, rmdirOp fs6 (root ++ [storeC, tmpName]), none⟩
                                | some fs7 =>
                                    ⟨0, rmdirOp fs7 (root ++ [storeC, tmpName]),
                                      some (root ++ [storeC, name, ver])⟩

end Store

section StoreTests

/-- The component r (a test root). -/
def compR : FSm.Comp := [114]

/-- The component foo. -/
def compFoo : FSm.Comp := [102, 111, 111]

/-- The component 1.0. -/
def compVer : FSm.Comp := [49, 46, 48]

/-- A first fresh temp name. -/
def tmpA : FSm.Comp := [46, 116, 109, 112, 65]

/-- A second fresh temp name. -/
def tmpB : FSm.Comp := [46, 116, 109, 112, 66]

/-- A concrete unpacker hook: writes one file x under the
destination. -/
def unpackOne (fs : FSm.FS) (d : FSm.FPath) : Bool × FSm.FS :=
  (true, FSm.setNode fs (d ++ [[120]]) (FSm.Node.file [104]))

/-- A validator that rejects every tree. -/
def rejectAll (_fs : FSm.FS) (_d : FSm.FPath) : Bool := false

/-- A validator that accepts every tree. -/
def acceptAll (_fs : FSm.FS) (_d : FSm.FPath) : Bool := true

/-- The digest string d1 (never read by the importer). -/
def shaD1 : List Nat := [100, 49]

/-- Validation failure: the import reports an error but the temp
tree it unpacked stays on disk, because the cleanup is a plain rmdir
of a non-empty directory. -/
example :
    (Store.store_import_pkg_atomic [([compR], FSm.Node.dir)] [compR] compFoo compVer
        shaD1 tmpA unpackOne rejectAll).code = -1 ∧
    FSm.lookup (Store.store_import_pkg_atomic [([compR], FSm.Node.dir)] [compR] compFoo compVer
        shaD1 tmpA unpackOne rejectAll).fs
      ([compR, Store.storeC, tmpA]) = some FSm.Node.dir ∧
    FSm.lookup (Store.store_import_pkg_atomic [([compR], FSm.Node.dir)] [compR] compFoo compVer
        shaD1 tmpA unpackOne rejectAll).fs
      ([compR, Store.storeC, tmpA, compFoo, compVer, Store.filesC, [120]]) =
        some (FSm.Node.file [104]) := by
  decide

/-- First import succeeds; a second import of the same name, version
and digest returns -1, not success. -/
example :
    (Store.store_import_pkg_atomic [([compR], FSm.Node.dir)] [compR] compFoo compVer
        shaD1 tmpA unpackOne acceptAll).code = 0 ∧
    (Store.store_import_pkg_atomic
        (Store.store_import_pkg_atomic [([compR], FSm.Node.dir)] [compR] compFoo compVer
          shaD1 tmpA unpackOne acceptAll).fs
        [compR] compFoo compVer shaD1 tmpB unpackOne acceptAll).code = -1 := by
  decide

end StoreTests

namespace Store

open FSm

/-- C3: amended import-conflict property.  Whenever store/name/ver
already exists (the store chain being real directories, the mkdtemp
name fresh, its name distinct from the package and the unpack hook
writing only below its destination), a second import returns -1
whatever expected digest is passed (the digest argument is never
consulted), and the existing entry subtree is byte-for-byte
untouched.  The original claim promised success for a matching digest;
the code returns -1 for every digest. -/
theorem store_import_existing_version
    (fs : FS) (root : FPath) (name ver : Comp) (sha : List Nat) (tmpName : Comp)
    (uh : FS → FPath → Bool × FS) (vh : FS → FPath → Bool)
    (hchain : chainDirs fs (root ++ [storeC, name]))
    (hfinal : lookup fs (root ++ [storeC, name, ver]) ≠ none)
    (htmpfresh : ∀ p, pathLe (root ++ [storeC, tmpName]) p = true → lookup fs p = none)
    (htmpname : tmpName ≠ name)
    (hlocal : ∀ f d q, ¬ pathLe d q = true → lookup (uh f d).2 q = lookup f q) :
    (store_import_pkg_atomic fs root name ver sha tmpName uh vh).code = -1 ∧
    (∀ p, pathLe (root ++ [storeC, name, ver]) p = true →
      lookup (store_import_pkg_atomic fs root name ver sha tmpName uh vh).fs p =
        lookup fs p) := by
  have eSB : (root ++ [storeC]) ++ [tmpName] = root ++ [storeC, tmpName] := by simp
  have eFP : (root ++ [storeC]) ++ [name] = root ++ [storeC, name] := by simp
  have eFIN : (root ++ [storeC, name]) ++ [ver] = root ++ [storeC, name, ver] := by simp
  have hlenSB : (root ++ [storeC]).length = root.length + 1 := by simp
  have hlenTMP : (root ++ [storeC, tmpName]).length = root.length + 2 := by simp
  have hlenFP : (root ++ [storeC, name]).length = root.length + 2 := by simp
  have hlenFIN : (root ++ [storeC, name, ver]).length = root.length + 3 := by simp
  -- the store chain up to store/ is directories
  have hchainSB : chainDirs fs (root ++ [storeC]) := by
    have he : (root ++ [storeC, name]).take (root.length + 1) = root ++ [storeC] := by
      rw [show root.length + 1 = root.length + (0 + 1) from rfl, List.take_append]
      rfl
    have h2 := chainDirs_take fs (root ++ [storeC, name]) (root.length + 1) hchain
    rw [he] at h2
    exact h2
  -- nothing tmp-prefixed touches the final name subtree
  have hdisj : ∀ q, pathLe (root ++ [storeC, tmpName]) q = true →
      pathLe (root ++ [storeC, name]) q = true → False := by
    intro q hq1 hq2
    obtain ⟨a, rfl⟩ := (pathLe_iff _ q).mp hq1
    obtain ⟨b, hb⟩ := (pathLe_iff _ _).mp hq2
    rw [List.append_assoc, List.append_assoc] at hb
    have hc := List.append_cancel_left hb
    simp at hc
    exact htmpname hc.1
  have hFPFIN : pathLe (root ++ [storeC, name]) (root ++ [storeC, name, ver]) = true := by
    rw [← eFIN]
    exact pathLe_append_self _ _
  have hntmp_fin : ∀ p, pathLe (root ++ [storeC, name, ver]) p = true →
      ¬ pathLe (root ++ [storeC, tmpName]) p = true := by
    intro p hp hT
    exact hdisj p hT (pathLe_trans _ _ _ hFPFIN hp)
  have hchain_nottmp : ∀ i, i < (root ++ [storeC, name]).length →
      ¬ pathLe (root ++ [storeC, tmpName]) ((root ++ [storeC, name]).take (i + 1)) = true := by
    intro i hi hLe
    have hl1 := pathLe_length _ _ hLe
    rw [List.length_take, hlenTMP] at hl1
    rw [hlenFP] at hi
    have hieq : i + 1 = root.length + 2 := by omega
    have htake : (root ++ [storeC, name]).take (i + 1) = root ++ [storeC, name] := by
      rw [hieq, ← hlenFP, List.take_length]
    rw [htake] at hLe
    have := pathLe_eq_of_le_length _ _ hLe (by rw [hlenTMP, hlenFP])
    have hc := List.append_cancel_left this
    simp at hc
    exact htmpname hc
  -- step 1: ensure store/ exists is a no-op
  have h1 : ensure_dir_p fs (root ++ [storeC]) = some fs :=
    mkdirsList_noop_of_chain fs _ hchainSB
  -- step 2: the temp name is fresh
  have h2 : lookup fs (root ++ [storeC, tmpName]) = none :=
    htmpfresh _ (pathLe_refl _)
  -- step 3: after mkdtemp the whole tmp chain is directories
  have htmpdir : lookup (setNode fs (root ++ [storeC, tmpName]) Node.dir)
      (root ++ [storeC, tmpName]) = some Node.dir := by
    rw [lookup_setNode, if_pos rfl]
  have hchainSB2 : chainDirs (setNode fs (root ++ [storeC, tmpName]) Node.dir)
      (root ++ [storeC]) := by
    apply chainDirs_setNode_longer fs _ _ Node.dir hchainSB
    rw [hlenSB, hlenTMP]
    omega
  have hchainTMP : chainDirs (setNode fs (root ++ [storeC, tmpName]) Node.dir)
      (root ++ [storeC, tmpName]) := by
    have h5 := chainDirs_snoc (setNode fs (root ++ [storeC, tmpName]) Node.dir)
      (root ++ [storeC]) tmpName hchainSB2 (by simpa using htmpdir)
    simpa using h5
  have h3 : ensure_dir_p (setNode fs (root ++ [storeC, tmpName]) Node.dir)
      (root ++ [storeC, tmpName]) =
      some (setNode fs (root ++ [storeC, tmpName]) Node.dir) :=
    mkdirsList_noop_of_chain _ _ hchainTMP
  -- step 4: building tmp/name/ver/files
  have hfree4 : ∀ j, j < ([name, ver, filesC] : List Comp).length →
      lookup (setNode fs (root ++ [storeC, tmpName]) Node.dir)
        ((root ++ [storeC, tmpName]) ++ [name, ver, filesC].take (j + 1)) = some Node.dir ∨
      lookup (setNode fs (root ++ [storeC, tmpName]) Node.dir)
        ((root ++ [storeC, tmpName]) ++ [name, ver, filesC].take (j + 1)) = none := by
    intro j hj
    right
    rw [lookup_setNode, if_neg ?_]
    · exact htmpfresh _ (pathLe_append_self _ _)
    · intro he
      have hlen := congrArg List.length he
      simp [List.length_take] at hlen
  obtain ⟨fs4, hm4, hp4, hd4⟩ := mkdirsInner [name, ver, filesC]
    (setNode fs (root ++ [storeC, tmpName]) Node.dir) (root ++ [storeC, tmpName])
    ((isDirAt_true_iff _ _).mpr (Or.inr htmpdir)) hfree4
  have h4 : ensure_dir_p (setNode fs (root ++ [storeC, tmpName]) Node.dir)
      ((root ++ [storeC, tmpName]) ++ [name, ver, filesC]) = some fs4 := by
    unfold ensure_dir_p
    rw [prefixesOf_append, mkdirsList_append, mkdirsList_noop_of_chain _ _ hchainTMP]
    simp only []
    exact hm4
  -- preservation through step 4
  have hpres4 : ∀ q, ¬ pathLe (root ++ [storeC, tmpName]) q = true →
      lookup fs4 q = lookup fs q := by
    intro q hq
    rw [hp4 q ?_, lookup_setNode, if_neg ?_]
    · intro he
      rw [he] at hq
      exact hq (pathLe_refl _)
    · intro j hj he
      rw [he] at hq
      exact hq (pathLe_append_self _ _)
  -- the hook and everything later only touches the tmp subtree
  have hUDsub : pathLe (root ++ [storeC, tmpName])
      ((root ++ [storeC, tmpName]) ++ [name, ver, filesC]) = true :=
    pathLe_append_self _ _
  have hpres5 : ∀ q, ¬ pathLe (root ++ [storeC, tmpName]) q = true →
      lookup (uh fs4 ((root ++ [storeC, tmpName]) ++ [name, ver, filesC])).2 q = lookup fs q := by
    intro q hq
    rw [hlocal fs4 _ q ?_, hpres4 q hq]
    intro hc
    exact hq (pathLe_trans _ _ _ hUDsub hc)
  have hch_fs5 : chainDirs (uh fs4 ((root ++ [storeC, tmpName]) ++ [name, ver, filesC])).2
      (root ++ [storeC, name]) := by
    intro i hi
    rw [hpres5 _ (hchain_nottmp i hi)]
    exact hchain i hi
  have h6 : ensure_dir_p (uh fs4 ((root ++ [storeC, tmpName]) ++ [name, ver, filesC])).2
      (root ++ [storeC, name]) =
      some (uh fs4 ((root ++ [storeC, tmpName]) ++ [name, ver, filesC])).2 :=
    mkdirsList_noop_of_chain _ _ hch_fs5
  have hfin5 : lookup (uh fs4 ((root ++ [storeC, tmpName]) ++ [name, ver, filesC])).2
      (root ++ [storeC, name, ver]) = lookup fs (root ++ [storeC, name, ver]) :=
    hpres5 _ (hntmp_fin _ (pathLe_refl _))
  -- now run the function
  unfold store_import_pkg_atomic
  rw [h1]
  simp only []
  rw [h2]
  simp only []
  rw [h3]
  simp only []
  rw [h4]
  simp only []
  cases huh : uh fs4 ((root ++ [storeC, tmpName]) ++ [name, ver, filesC]) with
  | mk ok fs5 =>
      have hpres5x : ∀ q, ¬ pathLe (root ++ [storeC, tmpName]) q = true →
          lookup fs5 q = lookup fs q := by
        intro q hq
        have := hpres5 q hq
        rw [huh] at this
        exact this
      cases ok with
      | false =>
          simp only []
          constructor
          · trivial
          · intro p hp
            rw [lookup_rmdirOp_other, hpres5x p (hntmp_fin p hp)]
            intro he
            rw [he] at hp
            exact hdisj _ (pathLe_refl _) (pathLe_trans _ _ _ hFPFIN hp)
      | true =>
          simp only []
          by_cases hv : vh fs5 ((root ++ [storeC, tmpName]) ++ [name, ver, filesC]) = false
          · rw [if_pos hv]
            constructor
            · trivial
            · intro p hp
              rw [lookup_rmdirOp_other, hpres5x p (hntmp_fin p hp)]
              intro he
              rw [he] at hp
              exact hdisj _ (pathLe_refl _) (pathLe_trans _ _ _ hFPFIN hp)
          · rw [if_neg hv]
            have h6x : ensure_dir_p fs5 (root ++ [storeC, name]) = some fs5 := by
              have := h6
              rw [huh] at this
              exact this
            rw [h6x]
            simp only []
            have hfinx : lookup fs5 (root ++ [storeC, name, ver]) =
                lookup fs (root ++ [storeC, name, ver]) := by
              have := hfin5
              rw [huh] at this
              exact this
            cases hlv : lookup fs (root ++ [storeC, name, ver]) with
            | none => exact absurd hlv hfinal
            | some n =>
                rw [hfinx, hlv]
                simp only []
                constructor
                · trivial
                · intro p hp
                  have hnp : ¬ pathLe (root ++ [storeC, tmpName]) p = true := hntmp_fin p hp
                  rw [lookup_rmdirOp_other, lookup_rmdirOp_other, hpres5x p hnp]
                  · intro he
                    rw [he] at hnp
                    exact hnp (pathLe_append_self _ _)
                  · intro he
                    rw [he] at hnp
                    exact hnp (pathLe_refl _)

end Store

namespace FSm

theorem lookup_renameSubtree_other (fs : FS) (src dst q : FPath)
    (h1 : ¬ pathLe src q = true) (h2 : ¬ pathLe dst q = true) :
    lookup (renameSubtree fs src dst) q = lookup fs q := by
  induction fs with
  | nil => rfl
  | cons x l ih =>
      unfold renameSubtree
      rw [List.map_cons]
      rw [show (renameSubtree l src dst) =
          l.map (fun e => if pathLe src e.1 then (dst ++ e.1.drop src.length, e.2) else e)
        from rfl] at ih
      by_cases hx : pathLe src x.1 = true
      · rw [if_pos hx, lookup_cons, lookup_cons]
        have hm : ¬ (dst ++ x.1.drop src.length, x.2).1 = q := by
          intro he
          have he2 : dst ++ x.1.drop src.length = q := he
          rw [← he2] at h2
          exact h2 (pathLe_append_self dst _)
        have ho : ¬ x.1 = q := by
          intro he
          rw [he] at hx
          exact h1 hx
        rw [if_neg hm, if_neg ho]
        exact ih
      · rw [if_neg hx, lookup_cons, lookup_cons]
        by_cases hxq : x.1 = q
        · rw [if_pos hxq, if_pos hxq]
        · rw [if_neg hxq, if_neg hxq]
          exact ih

theorem lookup_renameSubtree_dst (fs : FS) (src dst : FPath)
    (hfresh : lookup fs dst = none) :
    lookup (renameSubtree fs src dst) dst = lookup fs src := by
  induction fs with
  | nil => rfl
  | cons x l ih =>
      have hx1 : x.1 ≠ dst := lookup_none_no_entry (x :: l) dst hfresh x (by simp)
      have hfresh2 : lookup l dst = none := by
        rw [lookup_cons, if_neg hx1] at hfresh
        exact hfresh
      unfold renameSubtree
      rw [List.map_cons]
      rw [show (renameSubtree l src dst) =
          l.map (fun e => if pathLe src e.1 then (dst ++ e.1.drop src.length, e.2) else e)
        from rfl] at ih
      by_cases hx : pathLe src x.1 = true
      · rw [if_pos hx, lookup_cons, lookup_cons]
        by_cases hxs : x.1 = src
        · rw [if_pos ?_, if_pos hxs]
          rw [hxs, List.drop_length, List.append_nil]
        · obtain ⟨r, hr⟩ := (pathLe_iff src x.1).mp hx
          have hrne : r ≠ [] := by
            intro he
            rw [he, List.append_nil] at hr
            exact hxs hr
          rw [if_neg ?_, if_neg hxs]
          · exact ih hfresh2
          · intro he
            rw [hr, List.drop_left] at he
            have he2 : dst ++ r = dst := he
            have : (dst ++ r).length = dst.length := by rw [he2]
            rw [List.length_append] at this
            have : r.length = 0 := by omega
            exact hrne (List.length_eq_zero.mp this)
      · rw [if_neg hx, lookup_cons, lookup_cons, if_neg hx1, if_neg ?_]
        · exact ih hfresh2
        · intro he
          rw [he] at hx
          exact hx (pathLe_refl src)

end FSm

namespace PM

open FSm

/-- The component profiles of the pandora root. -/
def profilesC : Comp := [112, 114, 111, 102, 105, 108, 101, 115]

/-- The component vir, the live profile pointer. -/
def virC : Comp := [118, 105, 114]

/-- The component vir-new, the staging symlink of the activator. -/
def virNewC : Comp := [118, 105, 114, 45, 110, 101, 119]

/-- The component tmp, where the activator drops its txn log. -/
def tmpdirC : Comp := [116, 109, 112]

/-- The profile error codes of profile_manager.h. -/
def PROFILE_OK : Int := 0

/-- Error code: an entry whose target path does not stat. -/
def PROFILE_MISSING_TARGET : Int := 1

/-- Error code: two entries claim one normalized relpath, or a
directory already sits where a link must go. -/
def PROFILE_CONFLICT : Int := 2

/-- Error code: empty input or an unnormalizable relpath. -/
def PROFILE_INVALID_INPUT : Int := 3

/-- Error code: a failed filesystem call. -/
def PROFILE_INTERNAL_ERROR : Int := 4

/-- ProfileEntry of profile_manager.h: byte strings as listed. -/
structure ProfileEntry where
  relpath : List Nat
  target_path : List Nat
  pkg_name : List Nat
  pkg_version : List Nat
deriving DecidableEq

/-- The inner j-loop of profile_assemble_tmp: an earlier entry whose
relpath normalizes to the same component list is a conflict. -/
def conflictScan (prev : List ProfileEntry) (nrel : List (List Nat)) : Bool :=
  prev.any (fun pe =>
    match normalize_relpath pe.relpath with
    | some pn => pn == nrel
    | none => false)

/-- The entry loop of profile_assemble_tmp.  statOk stands for the
stat(2) probe of an entry target (the store lives outside the model).
Each failure removes the temp tree recursively (remove_tree_and_dir)
and returns the matching PROFILE code; an accepted entry gets its
parent chain made, any non-directory in the way unlinked, and a
symlink holding the raw target bytes planted. -/
def assembleLoop (statOk : List Nat → Bool) (tmp_dir : FPath) :
    List ProfileEntry → FS → List ProfileEntry → Int × FS × Option FPath
  | [], fs, _ => (PROFILE_OK, fs, some tmp_dir)
  | e :: rest, fs, prev =>
      match normalize_relpath e.relpath with
      | none => (PROFILE_INVALID_INPUT, removeSubtree fs tmp_dir, none)
      | some nrel =>
          if statOk e.target_path = false then
            (PROFILE_MISSING_TARGET, removeSubtree fs tmp_dir, none)
          else if conflictScan prev nrel = true then
            (PROFILE_CONFLICT, removeSubtree fs tmp_dir, none)
          else
            match mkdirsList fs (prefixesOf ((tmp_dir ++ nrel).dropLast)) with
            | none => (PROFILE_INTERNAL_ERROR, removeSubtree fs tmp_dir, none)
            | some fs1 =>
                match lookup fs1 (tmp_dir ++ nrel) with
                | some Node.dir => (PROFILE_CONFLICT, removeSubtree fs1 tmp_dir, none)
                | some _ =>
                    match unlinkOp fs1 (tmp_dir ++ nrel) with
                    | none => (PROFILE_INTERNAL_ERROR, removeSubtree fs1 tmp_dir, none)
                    | some fs2 =>
                        match symlinkOp fs2 e.target_path (tmp_dir ++ nrel) with
                        | none => (PROFILE_INTERNAL_ERROR, removeSubtree fs2 tmp_dir, none)
                        | some fs3 => assembleLoop statOk tmp_dir rest fs3 (prev ++ [e])
                | none =>
                    match symlinkOp fs1 e.target_path (tmp_dir ++ nrel) with
                    | none => (PROFILE_INTERNAL_ERROR, removeSubtree fs1 tmp_dir, none)
                    | some fs3 => assembleLoop statOk tmp_dir rest fs3 (prev ++ [e])

/-- profile_assemble_tmp after mkdtemp: tmpName stands for the fresh
XXXXXX name; mkdtemp itself must create the directory. -/
def profile_assemble_go (statOk : List Nat → Bool) (root : FPath) (tmpName : Comp)
    (entries : List ProfileEntry) (fs : FS) : Int × FS × Option FPath :=
  match mkdirOp fs (root ++ [profilesC, tmpName]) with
  | MkdirRes.made fs2 => assembleLoop statOk (root ++ [profilesC, tmpName]) entries fs2 []
  | _ => (PROFILE_INTERNAL_ERROR, fs, none)

/-- profile_assemble_tmp of profile_manager.c: reject empty input,
ensure profiles/, mkdtemp a temp profile dir, then run the entry
loop. -/
def profile_assemble_tmp (statOk : List Nat → Bool) (fs : FS) (root : FPath)
    (tmpName : Comp) (entries : List ProfileEntry) : Int × FS × Option FPath :=
  if entries = [] then (PROFILE_INVALID_INPUT, fs, none)
  else
    match mkdirOp fs (root ++ [profilesC]) with
    | MkdirRes.failed => (PROFILE_INTERNAL_ERROR, fs, none)
    | MkdirRes.made fs1 => profile_assemble_go statOk root tmpName entries fs1
    | MkdirRes.eexist => profile_assemble_go statOk root tmpName entries fs

/-- The bytes activated=, the txn log line head. -/
def activatedEq : List Nat := [97, 99, 116, 105, 118, 97, 116, 101, 100, 61]

/-- A path as the C string the sources print: slash-joined from the
root. -/
def pathBytes (p : FPath) : List Nat := 47 :: Arch.joinComps p

/-- The txn log line activated=path. -/
def txnBytes (final : FPath) : List Nat := activatedEq ++ pathBytes final ++ [10]

/-- The fopen+fprintf of the txn log: txnOk stands for the fopen
outcome; every failure is swallowed. -/
def txn_write (fs : FS) (root final : FPath) (txnName : Comp) (txnOk : Bool) : FS :=
  if txnOk then
    match writeFileR fs (root ++ [tmpdirC, txnName]) (txnBytes final) with
    | some r => r.1
    | none => fs
  else fs

/-- The txn tail of profile_atomic_activate: ensure_dir tmp (result
ignored), then the best-effort log write. -/
def txn_log (fs : FS) (root final : FPath) (txnName : Comp) (txnOk : Bool) : FS :=
  match mkdirOp fs (root ++ [tmpdirC]) with
  | MkdirRes.made f => txn_write f root final txnName txnOk
  | _ => txn_write fs root final txnName txnOk

/-- The vir swap of profile_atomic_activate: symlink vir-new at the
final profile, rename it onto vir, then log; only the two calls can
fail. -/
def activate_swap (fs3 : FS) (root final : FPath) (txnName : Comp) (txnOk : Bool) :
    Int × FS :=
  match symlinkOp fs3 (pathBytes final) (root ++ [virNewC]) with
  | none => (-1, fs3)
  | some fs4 =>
      match renameOp fs4 (root ++ [virNewC]) (root ++ [virC]) with
      | none => (-1, fs4)
      | some fs5 => (0, txn_log fs5 root final txnName txnOk)

/-- profile_atomic_activate after ensure_dir: rename the temp profile
to its final name, drop any stale vir-new (failure ignored), then
swap. -/
def activate_renamed (fs : FS) (root tmpProfile final : FPath) (txnName : Comp)
    (txnOk : Bool) : Int × FS :=
  match renameOp fs tmpProfile final with
  | none => (-1, fs)
  | some fs2 =>
      match unlinkOp fs2 (root ++ [virNewC]) with
      | some f => activate_swap f root final txnName txnOk
      | none => activate_swap fs2 root final txnName txnOk

/-- profile_atomic_activate of profile_manager.c: finalName stands
for the name-pid-nsec unique final component, txnName for the txn log
file name. -/
def profile_atomic_activate (fs : FS) (root tmpProfile : FPath)
    (finalName txnName : Comp) (txnOk : Bool) : Int × FS :=
  match mkdirOp fs (root ++ [profilesC]) with
  | MkdirRes.failed => (-1, fs)
  | MkdirRes.made fs1 =>
      activate_renamed fs1 root tmpProfile (root ++ [profilesC, finalName]) txnName txnOk
  | MkdirRes.eexist =>
      activate_renamed fs root tmpProfile (root ++ [profilesC, finalName]) txnName txnOk

end PM

namespace PMTests

open FSm PM

/-- A root directory component r. -/
def rootP : FPath := [[114]]

/-- The temp profile name component. -/
def tmpNP : Comp := [48]

/-- First duplicate entry: relpath bin/x, target /s/1. -/
def entryDup1 : ProfileEntry :=
  ⟨[98, 105, 110, 47, 120], [47, 115, 47, 49], [112, 49], [49]⟩

/-- Second duplicate entry: same relpath bin/x, target /s/2. -/
def entryDup2 : ProfileEntry :=
  ⟨[98, 105, 110, 47, 120], [47, 115, 47, 50], [112, 50], [49]⟩

/-- The stat oracle: only /s/1 exists. -/
def statOkD (t : List Nat) : Bool := t == [47, 115, 47, 49]

/-- A filesystem holding just the root directory. -/
def fsP0 : FS := [([[114]], Node.dir)]

example : normalize_relpath entryDup1.relpath = some [[98, 105, 110], [120]] := by decide

example : (profile_assemble_tmp statOkD fsP0 rootP tmpNP [entryDup1, entryDup2]).1 =
    PROFILE_MISSING_TARGET := by decide

example : (profile_assemble_tmp statOkD fsP0 rootP tmpNP [entryDup1, entryDup2]).2.2 =
    none := by decide

example : (profile_assemble_tmp statOkD fsP0 rootP tmpNP [entryDup1]).1 = PROFILE_OK := by
  decide

example :
    lookup (profile_assemble_tmp statOkD fsP0 rootP tmpNP [entryDup1]).2.1
      (rootP ++ [profilesC, tmpNP] ++ [[98, 105, 110], [120]]) =
    some (Node.symlink [47, 115, 47, 49]) := by decide

example : (profile_assemble_tmp statOkD fsP0 rootP tmpNP
    [entryDup1, { entryDup2 with target_path := [47, 115, 47, 49] }]).1 =
    PROFILE_CONFLICT := by decide

/-- The assembled state: profiles and a temp profile, plus a tmp dir. -/
def fsAct : FS :=
  [([[114]], Node.dir), ([[114], profilesC], Node.dir),
   ([[114], profilesC, tmpNP], Node.dir),
   ([[114], profilesC, tmpNP, [120]], Node.symlink [47, 115, 47, 49]),
   ([[114], tmpdirC], Node.dir)]

example : (profile_atomic_activate fsAct rootP (rootP ++ [profilesC, tmpNP])
    [102] [108] true).1 = 0 := by decide

example :
    lookup (profile_atomic_activate fsAct rootP (rootP ++ [profilesC, tmpNP])
      [102] [108] true).2 (rootP ++ [virC]) =
    some (Node.symlink (pathBytes (rootP ++ [profilesC, [102]]))) := by decide

example :
    lookup (profile_atomic_activate fsAct rootP (rootP ++ [profilesC, tmpNP])
      [102] [108] true).2 (rootP ++ [profilesC, [102]]) = some Node.dir := by decide

example :
    lookup (profile_atomic_activate fsAct rootP (rootP ++ [profilesC, tmpNP])
      [102] [108] true).2 (rootP ++ [tmpdirC, [108]]) =
    some (Node.file (txnBytes (rootP ++ [profilesC, [102]]))) := by decide

example :
    (profile_atomic_activate fsAct rootP (rootP ++ [profilesC, tmpNP])
      [102] [108] false).1 = 0 := by decide

end PMTests

namespace FSm

theorem pathLe_take (l : FPath) (k : Nat) : pathLe (l.take k) l = true :=
  (pathLe_iff (l.take k) l).mpr ⟨l.drop k, (List.take_append_drop k l).symm⟩

end FSm

namespace PM

open FSm

theorem normLoop_some_ne_nil (toks : List (List Nat)) :
    ∀ acc n, normLoop toks acc = some n → n ≠ [] := by
  induction toks with
  | nil =>
      intro acc n h
      unfold normLoop at h
      by_cases ha : acc = []
      · rw [if_pos ha] at h
        exact absurd h (by simp)
      · rw [if_neg ha] at h
        have : acc = n := by
          have := h
          simpa using this
        rw [← this]
        exact ha
  | cons t r ih =>
      intro acc n h
      unfold normLoop at h
      by_cases hb : t = [] ∨ t = [46] ∨ t = [46, 46]
      · rw [if_pos hb] at h
        exact absurd h (by simp)
      · rw [if_neg hb] at h
        by_cases hl : 4096 < acc.foldl (fun a c => a + c.length) 0 + (acc.length - 1) +
            (if acc = [] then 0 else 1) + t.length + 1
        · rw [if_pos hl] at h
          exact absurd h (by simp)
        · rw [if_neg hl] at h
          exact ih (acc ++ [t]) n h

theorem normalize_some_ne_nil (s : List Nat) (n : List (List Nat))
    (h : normalize_relpath s = some n) : n ≠ [] := by
  cases s with
  | nil => exact absurd h (by simp [normalize_relpath])
  | cons b bs =>
      unfold normalize_relpath at h
      simp only [] at h
      by_cases hb : b = 47
      · rw [if_pos hb] at h
        exact absurd h (by simp)
      · rw [if_neg hb] at h
        exact normLoop_some_ne_nil _ [] n h

theorem conflictScan_found (prev : List ProfileEntry) (nrel : List (List Nat))
    (p : ProfileEntry) (hp : p ∈ prev) (hn : normalize_relpath p.relpath = some nrel) :
    conflictScan prev nrel = true := by
  unfold conflictScan
  rw [List.any_eq_true]
  refine ⟨p, hp, ?_⟩
  show (match normalize_relpath p.relpath with
    | some pn => pn == nrel
    | none => false) = true
  rw [hn]
  simp

theorem conflictScan_none (prev : List ProfileEntry) (nrel : List (List Nat))
    (h : ∀ p ∈ prev, ∀ np, normalize_relpath p.relpath = some np → np ≠ nrel) :
    conflictScan prev nrel = false := by
  unfold conflictScan
  rw [List.any_eq_false]
  intro p hp
  show ¬ (match normalize_relpath p.relpath with
    | some pn => pn == nrel
    | none => false) = true
  cases hc : normalize_relpath p.relpath with
  | none => simp
  | some np =>
      simp only [beq_iff_eq]
      intro he
      exact h p hp np hc he

theorem assembleLoop_nil (statOk : List Nat → Bool) (tmp_dir : FPath) (fs : FS)
    (prev : List ProfileEntry) :
    assembleLoop statOk tmp_dir [] fs prev = (PROFILE_OK, fs, some tmp_dir) := rfl

theorem assembleLoop_cons (statOk : List Nat → Bool) (tmp_dir : FPath)
    (e : ProfileEntry) (rest : List ProfileEntry) (fs : FS) (prev : List ProfileEntry) :
    assembleLoop statOk tmp_dir (e :: rest) fs prev =
      match normalize_relpath e.relpath with
      | none => (PROFILE_INVALID_INPUT, removeSubtree fs tmp_dir, none)
      | some nrel =>
          if statOk e.target_path = false then
            (PROFILE_MISSING_TARGET, removeSubtree fs tmp_dir, none)
          else if conflictScan prev nrel = true then
            (PROFILE_CONFLICT, removeSubtree fs tmp_dir, none)
          else
            match mkdirsList fs (prefixesOf ((tmp_dir ++ nrel).dropLast)) with
            | none => (PROFILE_INTERNAL_ERROR, removeSubtree fs tmp_dir, none)
            | some fs1 =>
                match lookup fs1 (tmp_dir ++ nrel) with
                | some Node.dir => (PROFILE_CONFLICT, removeSubtree fs1 tmp_dir, none)
                | some _ =>
                    match unlinkOp fs1 (tmp_dir ++ nrel) with
                    | none => (PROFILE_INTERNAL_ERROR, removeSubtree fs1 tmp_dir, none)
                    | some fs2 =>
                        match symlinkOp fs2 e.target_path (tmp_dir ++ nrel) with
                        | none => (PROFILE_INTERNAL_ERROR, removeSubtree fs2 tmp_dir, none)
                        | some fs3 => assembleLoop statOk tmp_dir rest fs3 (prev ++ [e])
                | none =>
                    match symlinkOp fs1 e.target_path (tmp_dir ++ nrel) with
                    | none => (PROFILE_INTERNAL_ERROR, removeSubtree fs1 tmp_dir, none)
                    | some fs3 => assembleLoop statOk tmp_dir rest fs3 (prev ++ [e]) := rfl

end PM

namespace FSm

theorem symlinkOp_create (fs : FS) (tgt : List Nat) (p : FPath) (hp : p ≠ [])
    (htgt : tgt ≠ []) (hpar : isDirAt fs p.dropLast = true) (hfree : lookup fs p = none) :
    symlinkOp fs tgt p = some (setNode fs p (Node.symlink tgt)) := by
  cases p with
  | nil => exact absurd rfl hp
  | cons a as =>
      unfold symlinkOp
      simp only []
      rw [if_neg htgt, if_pos hpar, hfree]

end FSm

namespace PM

open FSm

theorem assembleLoop_clean (statOk : List Nat → Bool) (fs : FS) (tmp : FPath)
    (ej : ProfileEntry) (suf : List ProfileEntry) (nj : List (List Nat))
    (hnj : normalize_relpath ej.relpath = some nj)
    (hsj : statOk ej.target_path = true)
    (htmpchain : ∀ i, i + 1 < tmp.length → lookup fs (tmp.take (i + 1)) = some Node.dir) :
    ∀ (pre prev : List ProfileEntry) (fsx : FS),
    (∃ ei ∈ prev ++ pre, normalize_relpath ei.relpath = some nj) →
    (∀ e ∈ pre, (∃ n, normalize_relpath e.relpath = some n) ∧
        statOk e.target_path = true ∧ e.target_path ≠ []) →
    ((prev ++ pre).Pairwise (fun a b => ∀ na nb,
        normalize_relpath a.relpath = some na → normalize_relpath b.relpath = some nb →
        pathLe na nb = false ∧ pathLe nb na = false)) →
    (∀ q, pathLe tmp q = false → lookup fsx q = lookup fs q) →
    (lookup fsx tmp = some Node.dir) →
    (∀ q, pathLe tmp q = true → q ≠ tmp →
      (lookup fsx q = none ∨
       (∃ p ∈ prev, ∃ np k, normalize_relpath p.relpath = some np ∧ 1 ≤ k ∧
          k < np.length ∧ q = tmp ++ np.take k ∧ lookup fsx q = some Node.dir) ∨
       (∃ p ∈ prev, ∃ np, normalize_relpath p.relpath = some np ∧ q = tmp ++ np ∧
          lookup fsx q = some (Node.symlink p.target_path)))) →
    (assembleLoop statOk tmp (pre ++ ej :: suf) fsx prev).1 = PROFILE_CONFLICT ∧
    (assembleLoop statOk tmp (pre ++ ej :: suf) fsx prev).2.2 = none ∧
    ∀ q, lookup (assembleLoop statOk tmp (pre ++ ej :: suf) fsx prev).2.1 q =
      if pathLe tmp q = true then none else lookup fs q := by
  intro pre
  induction pre with
  | nil =>
      intro prev fsx hdup hpre hpair hINV1 hINV2 hINV3
      obtain ⟨ei, hei, hein⟩ := hdup
      rw [List.append_nil] at hei
      rw [List.nil_append, assembleLoop_cons, hnj]
      simp only []
      rw [if_neg (show ¬ statOk ej.target_path = false from by rw [hsj]; simp)]
      rw [if_pos (conflictScan_found prev nj ei hei hein)]
      refine ⟨rfl, rfl, ?_⟩
      intro q
      show lookup (removeSubtree fsx tmp) q = _
      rw [lookup_removeSubtree]
      by_cases hq : pathLe tmp q = true
      · rw [if_pos hq, if_pos hq]
      · rw [if_neg hq, if_neg hq]
        exact hINV1 q (by simpa using hq)
  | cons e rest ih =>
      intro prev fsx hdup hpre hpair hINV1 hINV2 hINV3
      obtain ⟨⟨ne, hne⟩, hse, hte⟩ := hpre e (by simp)
      have hP : ∀ a ∈ prev, ∀ b ∈ e :: rest, ∀ na nb,
          normalize_relpath a.relpath = some na → normalize_relpath b.relpath = some nb →
          pathLe na nb = false ∧ pathLe nb na = false :=
        (List.pairwise_append.mp hpair).2.2
      have hscan : conflictScan prev ne = false := by
        apply conflictScan_none
        intro p hp np hnp heq2
        have hpe := hP p hp e (by simp) np ne hnp hne
        rw [heq2] at hpe
        exact absurd (pathLe_refl ne) (by rw [hpe.1]; simp)
      have hnnil : ne ≠ [] := normalize_some_ne_nil _ _ hne
      have hnlen : 1 ≤ ne.length := by
        cases hc : ne with
        | nil => exact absurd hc hnnil
        | cons x xs => simp
      have hdl : (tmp ++ ne).dropLast = tmp ++ ne.dropLast :=
        List.dropLast_append_of_ne_nil tmp hnnil
      have hcx : chainDirs fsx tmp := by
        intro i hi
        by_cases hit : i + 1 < tmp.length
        · rw [hINV1 _ (pathLe_false_of_longer _ _
            (by rw [List.length_take]; omega))]
          exact htmpchain i hit
        · have hieq : i + 1 = tmp.length := by omega
          rw [hieq, List.take_length]
          exact hINV2
      have hcsl : ne.dropLast.length = ne.length - 1 := by rw [List.length_dropLast]
      have htakeq : ∀ j, j < ne.dropLast.length →
          ne.dropLast.take (j + 1) = ne.take (j + 1) := by
        intro j hj
        rw [List.dropLast_eq_take, List.take_take]
        congr 1
        omega
      have hfree : ∀ j, j < ne.dropLast.length →
          lookup fsx (tmp ++ ne.dropLast.take (j + 1)) = some Node.dir ∨
          lookup fsx (tmp ++ ne.dropLast.take (j + 1)) = none := by
        intro j hj
        rw [htakeq j hj]
        have hq1 : pathLe tmp (tmp ++ ne.take (j + 1)) = true := pathLe_append_self _ _
        have hq2 : tmp ++ ne.take (j + 1) ≠ tmp := by
          intro hcon
          have : (tmp ++ ne.take (j + 1)).length = tmp.length := by rw [hcon]
          rw [List.length_append, List.length_take] at this
          omega
        rcases hINV3 _ hq1 hq2 with hnone | ⟨p, hp, np, k, hnp, hk1, hk2, heq, hdir⟩ |
          ⟨p, hp, np, hnp, heq, _⟩
        · right
          exact hnone
        · left
          exact hdir
        · exfalso
          have hnpeq : ne.take (j + 1) = np := List.append_cancel_left heq
          have hpe := hP p hp e (by simp) np ne hnp hne
          have hlt : pathLe np ne = true := by
            rw [← hnpeq]
            exact pathLe_take ne (j + 1)
          rw [hpe.1] at hlt
          exact absurd hlt (by simp)
      obtain ⟨fs1, hm1, hp1, hd1⟩ := mkdirsInner ne.dropLast fsx tmp
        (chainDirs_isDirAt fsx tmp hcx) hfree
      rw [List.cons_append, assembleLoop_cons, hne]
      simp only []
      rw [if_neg (show ¬ statOk e.target_path = false from by rw [hse]; simp)]
      rw [if_neg (show ¬ conflictScan prev ne = true from by rw [hscan]; simp)]
      rw [hdl, prefixesOf_append tmp ne.dropLast, mkdirsList_append,
        mkdirsList_noop_of_chain fsx tmp hcx]
      simp only []
      rw [hm1]
      simp only []
      have hnotmade : ∀ j, j < ne.dropLast.length →
          tmp ++ ne ≠ tmp ++ ne.dropLast.take (j + 1) := by
        intro j hj hcon
        have hc2 : ne = ne.dropLast.take (j + 1) := List.append_cancel_left hcon
        have : ne.length = (ne.dropLast.take (j + 1)).length := by rw [← hc2]
        rw [List.length_take, List.length_dropLast] at this
        omega
      have hnone1 : lookup fs1 (tmp ++ ne) = none := by
        rw [hp1 _ hnotmade]
        have hq2 : tmp ++ ne ≠ tmp := by
          intro hcon
          have : (tmp ++ ne).length = tmp.length := by rw [hcon]
          rw [List.length_append] at this
          omega
        rcases hINV3 (tmp ++ ne) (pathLe_append_self _ _) hq2 with
          hnone | ⟨p, hp, np, k, hnp, hk1, hk2, heq, _⟩ | ⟨p, hp, np, hnp, heq, _⟩
        · exact hnone
        · exfalso
          have hc2 : ne = np.take k := List.append_cancel_left heq
          have hpe := hP p hp e (by simp) np ne hnp hne
          have hlt : pathLe ne np = true := by
            rw [hc2]
            exact pathLe_take np k
          rw [hpe.2] at hlt
          exact absurd hlt (by simp)
        · exfalso
          have hc2 : ne = np := List.append_cancel_left heq
          have hpe := hP p hp e (by simp) np ne hnp hne
          have hlt : pathLe ne np = true := by
            rw [hc2]
            exact pathLe_refl np
          rw [hpe.2] at hlt
          exact absurd hlt (by simp)
      rw [hnone1]
      simp only []
      have hpar1 : isDirAt fs1 (tmp ++ ne).dropLast = true := by
        rw [hdl]
        cases hcs : ne.dropLast with
        | nil =>
            rw [List.append_nil]
            rw [isDirAt_true_iff]
            right
            rw [hp1 tmp (by intro j hj; rw [hcs] at hj; simp at hj)]
            exact hINV2
        | cons c cs2 =>
            rw [isDirAt_true_iff]
            right
            have hlen2 : ne.dropLast.length - 1 < ne.dropLast.length := by
              rw [hcs]
              simp
            have := hd1 (ne.dropLast.length - 1) hlen2
            rw [show ne.dropLast.length - 1 + 1 = ne.dropLast.length from by
              rw [hcs]; simp, List.take_length] at this
            rw [hcs] at this
            exact this
      rw [symlinkOp_create fs1 e.target_path (tmp ++ ne)
        (by intro hcon; exact hnnil (by cases tmp with
          | nil => simpa using hcon
          | cons a as => simp at hcon)) hte hpar1 hnone1]
      simp only []
      have hlist : (prev ++ [e]) ++ rest = prev ++ e :: rest := by
        rw [List.append_assoc]
        rfl
      apply ih (prev ++ [e]) (setNode fs1 (tmp ++ ne) (Node.symlink e.target_path))
      · rw [hlist]
        exact hdup
      · intro x hx
        exact hpre x (by simp [hx])
      · rw [hlist]
        exact hpair
      · intro q hq
        rw [lookup_setNode, if_neg ?_, hp1 q ?_]
        · exact hINV1 q hq
        · intro j hj hcon
          rw [hcon] at hq
          rw [pathLe_append_self] at hq
          exact absurd hq (by simp)
        · intro hcon
          rw [hcon] at hq
          rw [pathLe_append_self] at hq
          exact absurd hq (by simp)
      · rw [lookup_setNode, if_neg ?_, hp1 tmp ?_]
        · exact hINV2
        · intro j hj hcon
          have : tmp.length = (tmp ++ ne.dropLast.take (j + 1)).length := by rw [← hcon]
          rw [List.length_append, List.length_take, List.length_dropLast] at this
          omega
        · intro hcon
          have : tmp.length = (tmp ++ ne).length := by rw [← hcon]
          rw [List.length_append] at this
          omega
      · intro q hq hqt
        by_cases hqe : q = tmp ++ ne
        · right; right
          refine ⟨e, by simp, ne, hne, hqe, ?_⟩
          rw [lookup_setNode, if_pos hqe]
        · rw [lookup_setNode, if_neg hqe]
          by_cases hmade : ∃ j, j < ne.dropLast.length ∧ q = tmp ++ ne.dropLast.take (j + 1)
          · obtain ⟨j, hj, hqj⟩ := hmade
            right; left
            refine ⟨e, by simp, ne, j + 1, hne, by omega, by omega, ?_, ?_⟩
            · rw [hqj, htakeq j hj]
            · rw [hqj]
              exact hd1 j hj
          · have hnm : ∀ j, j < ne.dropLast.length → q ≠ tmp ++ ne.dropLast.take (j + 1) := by
              intro j hj hcon
              exact hmade ⟨j, hj, hcon⟩
            rw [hp1 q hnm]
            rcases hINV3 q hq hqt with hnone | ⟨p, hp, np, k, hrest⟩ | ⟨p, hp, np, hrest⟩
            · left
              exact hnone
            · right; left
              exact ⟨p, by simp [hp], np, k, hrest⟩
            · right; right
              exact ⟨p, by simp [hp], np, hrest⟩

end PM

namespace PM

open FSm

/-- C5: amended duplicate-conflict property.  When the entry list is
pre with a later entry ej whose relpath normalizes like some earlier
ei of pre, and every entry of pre normalizes, stats OK, has a
nonempty target and pairwise prefix-incomparable normalized relpaths
(so no earlier error preempts the scan), profile_assemble_tmp returns
PROFILE_CONFLICT, reports no temp path, and the filesystem afterwards
is the original with the whole temp profile subtree removed: no
temporary profile directory remains.  The original unconditional
claim is refuted by the counterexample where the duplicate entry
fails stat first. -/
theorem profile_assemble_dup_conflict (statOk : List Nat → Bool) (fs : FS) (root : FPath)
    (tmpName : Comp) (pre : List ProfileEntry) (ej : ProfileEntry)
    (suf : List ProfileEntry) (ei : ProfileEntry) (hei : ei ∈ pre)
    (nj : List (List Nat))
    (hni : normalize_relpath ei.relpath = some nj)
    (hnj : normalize_relpath ej.relpath = some nj)
    (hsj : statOk ej.target_path = true)
    (hpre : ∀ e ∈ pre, (∃ n, normalize_relpath e.relpath = some n) ∧
        statOk e.target_path = true ∧ e.target_path ≠ [])
    (hpair : pre.Pairwise (fun a b => ∀ na nb,
        normalize_relpath a.relpath = some na → normalize_relpath b.relpath = some nb →
        pathLe na nb = false ∧ pathLe nb na = false))
    (hchain : chainDirs fs (root ++ [profilesC]))
    (hfresh : ∀ p, pathLe (root ++ [profilesC, tmpName]) p = true → lookup fs p = none) :
    (profile_assemble_tmp statOk fs root tmpName (pre ++ ej :: suf)).1 =
        PROFILE_CONFLICT ∧
    (profile_assemble_tmp statOk fs root tmpName (pre ++ ej :: suf)).2.2 = none ∧
    ∀ q, lookup (profile_assemble_tmp statOk fs root tmpName (pre ++ ej :: suf)).2.1 q =
      if pathLe (root ++ [profilesC, tmpName]) q = true then none else lookup fs q := by
  have hpd : lookup fs (root ++ [profilesC]) = some Node.dir := by
    have := hchain root.length (by simp)
    rw [show root.length + 1 = (root ++ [profilesC]).length from by simp,
      List.take_length] at this
    exact this
  have hpar : isDirAt fs (root ++ [profilesC]).dropLast = true := by
    rw [List.dropLast_concat]
    have h2 : chainDirs fs root := by
      have := chainDirs_take fs (root ++ [profilesC]) root.length hchain
      rw [List.take_left] at this
      exact this
    exact chainDirs_isDirAt fs root h2
  have hform : root ++ [profilesC, tmpName] = (root ++ [profilesC]) ++ [tmpName] := by
    simp
  have hpar2 : isDirAt fs (root ++ [profilesC, tmpName]).dropLast = true := by
    rw [hform, List.dropLast_concat]
    rw [isDirAt_true_iff]
    right
    exact hpd
  have hfr : lookup fs (root ++ [profilesC, tmpName]) = none :=
    hfresh _ (pathLe_refl _)
  unfold profile_assemble_tmp
  rw [if_neg (show ¬ pre ++ ej :: suf = [] from by simp)]
  rw [mkdirOp_of_exists fs (root ++ [profilesC]) (by simp) hpar Node.dir hpd]
  simp only []
  unfold profile_assemble_go
  rw [mkdirOp_create fs (root ++ [profilesC, tmpName]) (by simp) hpar2 hfr]
  simp only []
  apply assembleLoop_clean statOk fs (root ++ [profilesC, tmpName]) ej suf nj hnj hsj
    ?htmpchain (pre) ([]) (setNode fs (root ++ [profilesC, tmpName]) Node.dir)
    ?hdup ?hpre2 ?hpair2 ?hI1 ?hI2 ?hI3
  case htmpchain =>
    intro i hi
    rw [List.length_append] at hi
    simp only [List.length_cons, List.length_nil] at hi
    rw [hform, List.take_append_of_le_length (by simp; omega)]
    have := hchain i (by simp; omega)
    exact this
  case hdup =>
    exact ⟨ei, by simp [hei], hni⟩
  case hpre2 =>
    exact hpre
  case hpair2 =>
    rw [List.nil_append]
    exact hpair
  case hI1 =>
    intro q hq
    rw [lookup_setNode, if_neg ?_]
    intro hcon
    rw [hcon, pathLe_refl] at hq
    exact absurd hq (by simp)
  case hI2 =>
    rw [lookup_setNode, if_pos rfl]
  case hI3 =>
    intro q hq hqt
    left
    rw [lookup_setNode, if_neg hqt]
    exact hfresh q hq

end PM

namespace FSm

theorem resolveComps_literal (fs : FS) : ∀ (comps : List Comp) (fuel : Nat) (cur : FPath)
    (ff : Bool), comps.length < fuel →
    (∀ j, j + 1 < comps.length → lookup fs (cur ++ comps.take (j + 1)) = some Node.dir) →
    (comps ≠ [] → lookup fs (cur ++ comps) = some Node.dir ∨
        lookup fs (cur ++ comps) = none) →
    resolveComps fs fuel cur comps ff = some (cur ++ comps) := by
  intro comps
  induction comps with
  | nil =>
      intro fuel cur ff hf _ _
      cases fuel with
      | zero => omega
      | succ f =>
          unfold resolveComps
          rw [List.append_nil]
  | cons c rest ih =>
      intro fuel cur ff hf hpre hlast
      cases fuel with
      | zero => omega
      | succ f =>
          unfold resolveComps
          simp only []
          by_cases hr : rest = []
          · subst hr
            rcases hlast (by simp) with hdir | hnone
            · rw [show cur ++ [c] = cur ++ [c] ++ [] from by simp] at hdir
              rw [show cur ++ [c] ++ [] = cur ++ [c] from by simp] at hdir
              rw [hdir]
              simp only []
              have := ih f (cur ++ [c]) ff (by simp at hf ⊢; omega)
                (by intro j hj; simp at hj) (by intro hc; exact absurd rfl hc)
              rw [this, List.append_nil]
            · rw [hnone]
              simp only []
              simp
          · have hd0 : lookup fs (cur ++ [c]) = some Node.dir := by
              have := hpre 0 (by
                cases hrc : rest with
                | nil => exact absurd hrc hr
                | cons x xs => simp)
              simpa using this
            rw [hd0]
            simp only []
            have := ih f (cur ++ [c]) ff
              (by simp at hf ⊢; omega)
              (by
                intro j hj
                have := hpre (j + 1) (by simp at hj ⊢; omega)
                rw [List.take_succ_cons] at this
                rw [List.append_assoc]
                simpa using this)
              (by
                intro _
                have := hlast (by simp)
                rw [List.append_assoc]
                simpa using this)
            rw [this, List.append_assoc]
            simp

theorem writeFileR_create (fs : FS) (p : FPath) (data : List Nat)
    (hres : resolveComps fs FUEL [] p true = some p)
    (hnone : lookup fs p = none) (hnp : p ≠ []) (hpar : isDirAt fs p.dropLast = true) :
    writeFileR fs p data = some (setNode fs p (Node.file data), p) := by
  unfold writeFileR
  rw [hres]
  simp only []
  rw [hnone]
  simp only []
  rw [if_pos ⟨hnp, hpar⟩]

end FSm

namespace FSm

theorem pathLe_false_of_ne_len (p q : FPath) (hl : q.length ≤ p.length) (hne : p ≠ q) :
    pathLe p q = false := by
  by_cases h : pathLe p q = true
  · exact absurd (pathLe_eq_of_le_length p q h hl) hne
  · simpa using h

theorem unlinkOp_none_of_missing (fs : FS) (p : FPath) (h : lookup fs p = none) :
    unlinkOp fs p = none := by
  cases p with
  | nil => rfl
  | cons a as =>
      unfold unlinkOp
      simp only []
      by_cases hd : isDirAt fs (a :: as).dropLast = true
      · rw [if_pos hd, h]
      · rw [if_neg hd]

theorem unlinkOp_remove (fs : FS) (p : FPath) (hp : p ≠ [])
    (hpar : isDirAt fs p.dropLast = true) (n : Node) (hn : lookup fs p = some n)
    (hnd : n ≠ Node.dir) :
    unlinkOp fs p = some (removeNode fs p) := by
  cases p with
  | nil => exact absurd rfl hp
  | cons a as =>
      unfold unlinkOp
      simp only []
      rw [if_pos hpar, hn]
      cases n with
      | dir => exact absurd rfl hnd
      | file d => rfl
      | symlink t => rfl

theorem isDirAt_of_lookup_eq (fsa fsb : FS) (p : FPath)
    (h : lookup fsa p = lookup fsb p) (h2 : isDirAt fsb p = true) :
    isDirAt fsa p = true := by
  cases p with
  | nil => simp [isDirAt]
  | cons a as =>
      simp only [isDirAt, decide_eq_true_eq] at h2 ⊢
      rw [h]
      exact h2

end FSm

namespace PM

open FSm

theorem activate_swap_code (fs3 : FS) (root final : FPath) (txnName : Comp)
    (t1 t2 : Bool) :
    (activate_swap fs3 root final txnName t1).1 =
    (activate_swap fs3 root final txnName t2).1 := by
  unfold activate_swap
  cases symlinkOp fs3 (pathBytes final) (root ++ [virNewC]) with
  | none => rfl
  | some fs4 =>
      simp only []
      cases renameOp fs4 (root ++ [virNewC]) (root ++ [virC]) with
      | none => rfl
      | some fs5 => rfl

theorem activate_renamed_code (fs : FS) (root tmpProfile final : FPath) (txnName : Comp)
    (t1 t2 : Bool) :
    (activate_renamed fs root tmpProfile final txnName t1).1 =
    (activate_renamed fs root tmpProfile final txnName t2).1 := by
  unfold activate_renamed
  cases renameOp fs tmpProfile final with
  | none => rfl
  | some fs2 =>
      simp only []
      cases unlinkOp fs2 (root ++ [virNewC]) with
      | none => exact activate_swap_code fs2 root final txnName t1 t2
      | some f => exact activate_swap_code f root final txnName t1 t2

theorem activate_code_txn (fs : FS) (root tmpProfile : FPath) (finalName txnName : Comp)
    (t1 t2 : Bool) :
    (profile_atomic_activate fs root tmpProfile finalName txnName t1).1 =
    (profile_atomic_activate fs root tmpProfile finalName txnName t2).1 := by
  unfold profile_atomic_activate
  cases mkdirOp fs (root ++ [profilesC]) with
  | failed => rfl
  | made fs1 =>
      exact activate_renamed_code fs1 root tmpProfile
        (root ++ [profilesC, finalName]) txnName t1 t2
  | eexist =>
      exact activate_renamed_code fs root tmpProfile
        (root ++ [profilesC, finalName]) txnName t1 t2

end PM

namespace PM

open FSm

theorem activate_swap_ok (fs3 : FS) (root final : FPath) (txnName : Comp) (txnOk : Bool)
    (hvnnone : lookup fs3 (root ++ [virNewC]) = none)
    (hroot3 : isDirAt fs3 root = true)
    (hvir3 : ∀ n, lookup fs3 (root ++ [virC]) = some n → n ≠ Node.dir)
    (hfin3 : lookup fs3 final = some Node.dir)
    (hfinVN : final ≠ root ++ [virNewC]) (hfinVIR : final ≠ root ++ [virC])
    (htd3 : lookup fs3 (root ++ [tmpdirC]) = some Node.dir)
    (htxn3 : lookup fs3 (root ++ [tmpdirC, txnName]) = none)
    (hpfx3 : ∀ j, j + 1 < root.length + 2 →
        lookup fs3 ((root ++ [tmpdirC, txnName]).take (j + 1)) = some Node.dir)
    (hrl : root.length + 2 < FUEL)
    (hfinTXN : final ≠ root ++ [tmpdirC, txnName]) :
    (activate_swap fs3 root final txnName txnOk).1 = 0 ∧
    lookup (activate_swap fs3 root final txnName txnOk).2 (root ++ [virC]) =
      some (Node.symlink (pathBytes final)) ∧
    lookup (activate_swap fs3 root final txnName txnOk).2 final = some Node.dir := by
  have nVIRVN : root ++ [virC] ≠ root ++ [virNewC] := by
    intro h
    have h2 := List.append_cancel_left h
    simp [virC, virNewC] at h2
  have nTDVN : root ++ [tmpdirC] ≠ root ++ [virNewC] := by
    intro h
    have h2 := List.append_cancel_left h
    simp [tmpdirC, virNewC] at h2
  have nTDVIR : root ++ [tmpdirC] ≠ root ++ [virC] := by
    intro h
    have h2 := List.append_cancel_left h
    simp [tmpdirC, virC] at h2
  have nTXNVN : root ++ [tmpdirC, txnName] ≠ root ++ [virNewC] := by
    intro h
    have h2 := congrArg List.length h
    simp at h2
  have nTXNVIR : root ++ [tmpdirC, txnName] ≠ root ++ [virC] := by
    intro h
    have h2 := congrArg List.length h
    simp at h2
  have nVIRTXN : root ++ [virC] ≠ root ++ [tmpdirC, txnName] := fun h => nTXNVIR h.symm
  have nrootVN : root ≠ root ++ [virNewC] := by
    intro h
    have h2 := congrArg List.length h
    simp at h2
  have nrootVIR : root ≠ root ++ [virC] := by
    intro h
    have h2 := congrArg List.length h
    simp at h2
  unfold activate_swap
  rw [symlinkOp_create fs3 (pathBytes final) (root ++ [virNewC]) (by simp)
    (by simp [pathBytes]) (by rw [List.dropLast_concat]; exact hroot3) hvnnone]
  simp only []
  have hrv : renameOp (setNode fs3 (root ++ [virNewC]) (Node.symlink (pathBytes final)))
      (root ++ [virNewC]) (root ++ [virC]) =
      some (setNode (removeNode
          (setNode fs3 (root ++ [virNewC]) (Node.symlink (pathBytes final)))
          (root ++ [virNewC])) (root ++ [virC]) (Node.symlink (pathBytes final))) := by
    unfold renameOp
    rw [lookup_setNode, if_pos rfl]
    simp only []
    rw [lookup_setNode, if_neg nVIRVN]
    cases hcv : lookup fs3 (root ++ [virC]) with
    | none => rfl
    | some n =>
        have hnd := hvir3 n hcv
        cases n with
        | dir => exact absurd rfl hnd
        | file d => rfl
        | symlink t => rfl
  rw [hrv]
  simp only []
  have h5vir : lookup (setNode (removeNode
      (setNode fs3 (root ++ [virNewC]) (Node.symlink (pathBytes final)))
      (root ++ [virNewC])) (root ++ [virC]) (Node.symlink (pathBytes final)))
      (root ++ [virC]) = some (Node.symlink (pathBytes final)) := by
    rw [lookup_setNode, if_pos rfl]
  have h5pres : ∀ q, q ≠ root ++ [virNewC] → q ≠ root ++ [virC] →
      lookup (setNode (removeNode
        (setNode fs3 (root ++ [virNewC]) (Node.symlink (pathBytes final)))
        (root ++ [virNewC])) (root ++ [virC]) (Node.symlink (pathBytes final))) q =
      lookup fs3 q := by
    intro q hqn hqv
    rw [lookup_setNode, if_neg hqv, lookup_removeNode, if_neg hqn, lookup_setNode,
      if_neg hqn]
  have h5fin : lookup (setNode (removeNode
      (setNode fs3 (root ++ [virNewC]) (Node.symlink (pathBytes final)))
      (root ++ [virNewC])) (root ++ [virC]) (Node.symlink (pathBytes final))) final =
      some Node.dir := by
    rw [h5pres final hfinVN hfinVIR]
    exact hfin3
  have h5td : lookup (setNode (removeNode
      (setNode fs3 (root ++ [virNewC]) (Node.symlink (pathBytes final)))
      (root ++ [virNewC])) (root ++ [virC]) (Node.symlink (pathBytes final)))
      (root ++ [tmpdirC]) = some Node.dir := by
    rw [h5pres _ nTDVN nTDVIR]
    exact htd3
  have h5txn : lookup (setNode (removeNode
      (setNode fs3 (root ++ [virNewC]) (Node.symlink (pathBytes final)))
      (root ++ [virNewC])) (root ++ [virC]) (Node.symlink (pathBytes final)))
      (root ++ [tmpdirC, txnName]) = none := by
    rw [h5pres _ nTXNVN nTXNVIR]
    exact htxn3
  have h5pfx : ∀ j, j + 1 < root.length + 2 →
      lookup (setNode (removeNode
        (setNode fs3 (root ++ [virNewC]) (Node.symlink (pathBytes final)))
        (root ++ [virNewC])) (root ++ [virC]) (Node.symlink (pathBytes final)))
      ((root ++ [tmpdirC, txnName]).take (j + 1)) = some Node.dir := by
    intro j hj
    by_cases hle : j + 1 ≤ root.length
    · rw [List.take_append_of_le_length (by omega)]
      rw [h5pres (root.take (j + 1)) ?_ ?_]
      · have := hpfx3 j hj
        rw [List.take_append_of_le_length (by omega)] at this
        exact this
      · intro h
        have h2 := congrArg List.length h
        rw [List.length_take] at h2
        simp at h2
        omega
      · intro h
        have h2 := congrArg List.length h
        rw [List.length_take] at h2
        simp at h2
        omega
    · have hj2 : j + 1 = root.length + 1 := by omega
      rw [show root ++ [tmpdirC, txnName] = (root ++ [tmpdirC]) ++ [txnName] from by simp,
        hj2, show root.length + 1 = (root ++ [tmpdirC]).length from by simp,
        List.take_left]
      exact h5td
  have hroot5 : isDirAt (setNode (removeNode
      (setNode fs3 (root ++ [virNewC]) (Node.symlink (pathBytes final)))
      (root ++ [virNewC])) (root ++ [virC]) (Node.symlink (pathBytes final)))
      root = true :=
    isDirAt_of_lookup_eq _ fs3 root (h5pres root nrootVN nrootVIR) hroot3
  have hres : resolveComps (setNode (removeNode
      (setNode fs3 (root ++ [virNewC]) (Node.symlink (pathBytes final)))
      (root ++ [virNewC])) (root ++ [virC]) (Node.symlink (pathBytes final)))
      FUEL [] (root ++ [tmpdirC, txnName]) true = some (root ++ [tmpdirC, txnName]) := by
    have := resolveComps_literal (setNode (removeNode
        (setNode fs3 (root ++ [virNewC]) (Node.symlink (pathBytes final)))
        (root ++ [virNewC])) (root ++ [virC]) (Node.symlink (pathBytes final)))
      (root ++ [tmpdirC, txnName]) FUEL [] true
      (by simp only [List.length_append, List.length_cons, List.length_nil]; unfold FUEL at hrl ⊢; omega)
      (by
        intro j hj
        rw [List.nil_append]
        exact h5pfx j (by simpa using hj))
      (by
        intro _
        right
        rw [List.nil_append]
        exact h5txn)
    simpa using this
  have hlog : ∀ q, q ≠ root ++ [tmpdirC, txnName] →
      lookup (txn_log (setNode (removeNode
        (setNode fs3 (root ++ [virNewC]) (Node.symlink (pathBytes final)))
        (root ++ [virNewC])) (root ++ [virC]) (Node.symlink (pathBytes final)))
        root final txnName txnOk) q =
      lookup (setNode (removeNode
        (setNode fs3 (root ++ [virNewC]) (Node.symlink (pathBytes final)))
        (root ++ [virNewC])) (root ++ [virC]) (Node.symlink (pathBytes final))) q := by
    unfold txn_log
    rw [mkdirOp_of_exists _ (root ++ [tmpdirC]) (by simp)
      (by rw [List.dropLast_concat]; exact hroot5) Node.dir h5td]
    simp only []
    unfold txn_write
    cases txnOk with
    | false =>
        intro q _
        rw [if_neg (by simp)]
    | true =>
        intro q hq
        rw [if_pos rfl]
        rw [writeFileR_create _ (root ++ [tmpdirC, txnName]) (txnBytes final) hres h5txn
          (by simp)
          (by
            rw [show root ++ [tmpdirC, txnName] = (root ++ [tmpdirC]) ++ [txnName] from
              by simp, List.dropLast_concat]
            rw [isDirAt_true_iff]
            right
            exact h5td)]
        simp only []
        rw [lookup_setNode, if_neg hq]
  refine ⟨by trivial, ?_, ?_⟩
  · rw [hlog _ nVIRTXN]
    exact h5vir
  · rw [hlog _ hfinTXN]
    exact h5fin

end PM

namespace PM

open FSm

theorem profile_atomic_activate_ok (fs : FS) (root : FPath)
    (tmpN finalName txnName : Comp) (txnOk : Bool)
    (hrl : root.length + 2 < FUEL)
    (hchain : chainDirs fs (root ++ [profilesC]))
    (htmp : lookup fs (root ++ [profilesC, tmpN]) = some Node.dir)
    (hfinal : lookup fs (root ++ [profilesC, finalName]) = none)
    (hvn : ∀ n, lookup fs (root ++ [virNewC]) = some n → n ≠ Node.dir)
    (hvir : ∀ n, lookup fs (root ++ [virC]) = some n → n ≠ Node.dir)
    (htd : lookup fs (root ++ [tmpdirC]) = some Node.dir)
    (htxn : lookup fs (root ++ [tmpdirC, txnName]) = none) :
    (profile_atomic_activate fs root (root ++ [profilesC, tmpN])
        finalName txnName txnOk).1 = 0 ∧
    lookup (profile_atomic_activate fs root (root ++ [profilesC, tmpN])
        finalName txnName txnOk).2 (root ++ [virC]) =
      some (Node.symlink (pathBytes (root ++ [profilesC, finalName]))) ∧
    lookup (profile_atomic_activate fs root (root ++ [profilesC, tmpN])
        finalName txnName txnOk).2 (root ++ [profilesC, finalName]) =
      some Node.dir := by
  have hpd : lookup fs (root ++ [profilesC]) = some Node.dir := by
    have := hchain root.length (by simp)
    rw [show root.length + 1 = (root ++ [profilesC]).length from by simp,
      List.take_length] at this
    exact this
  have hrootfs : isDirAt fs root = true := by
    have h2 := chainDirs_take fs (root ++ [profilesC]) root.length hchain
    rw [List.take_left] at h2
    exact chainDirs_isDirAt fs root h2
  have hparP : isDirAt fs (root ++ [profilesC]).dropLast = true := by
    rw [List.dropLast_concat]
    exact hrootfs
  have hfs2 : ∀ q, q.length ≤ root.length + 1 →
      lookup (renameSubtree fs (root ++ [profilesC, tmpN])
        (root ++ [profilesC, finalName])) q = lookup fs q := by
    intro q hq
    apply lookup_renameSubtree_other
    · rw [pathLe_false_of_longer _ q (by simp; omega)]
      simp
    · rw [pathLe_false_of_longer _ q (by simp; omega)]
      simp
  have nTMPTXN : root ++ [profilesC, tmpN] ≠ root ++ [tmpdirC, txnName] := by
    intro h
    have h2 := List.append_cancel_left h
    simp [profilesC, tmpdirC] at h2
  have nFINTXN : root ++ [profilesC, finalName] ≠ root ++ [tmpdirC, txnName] := by
    intro h
    have h2 := List.append_cancel_left h
    simp [profilesC, tmpdirC] at h2
  have nFINTD : root ++ [profilesC, finalName] ≠ root ++ [tmpdirC] := by
    intro h
    have h2 := congrArg List.length h
    simp at h2
  have hfs2txn : lookup (renameSubtree fs (root ++ [profilesC, tmpN])
      (root ++ [profilesC, finalName])) (root ++ [tmpdirC, txnName]) =
      lookup fs (root ++ [tmpdirC, txnName]) := by
    apply lookup_renameSubtree_other
    · rw [pathLe_false_of_ne_len _ _ (by simp) nTMPTXN]
      simp
    · rw [pathLe_false_of_ne_len _ _ (by simp) nFINTXN]
      simp
  have hfs2fin : lookup (renameSubtree fs (root ++ [profilesC, tmpN])
      (root ++ [profilesC, finalName])) (root ++ [profilesC, finalName]) =
      some Node.dir := by
    rw [lookup_renameSubtree_dst fs _ _ hfinal]
    exact htmp
  have hTXNtake : ∀ j, j + 1 < root.length + 2 →
      lookup fs ((root ++ [tmpdirC, txnName]).take (j + 1)) = some Node.dir := by
    intro j hj
    by_cases hle : j + 1 ≤ root.length
    · rw [List.take_append_of_le_length (by omega)]
      have := hchain j (by simp; omega)
      rw [List.take_append_of_le_length (by omega)] at this
      exact this
    · have hj2 : j + 1 = root.length + 1 := by omega
      rw [show root ++ [tmpdirC, txnName] = (root ++ [tmpdirC]) ++ [txnName] from by simp,
        hj2, show root.length + 1 = (root ++ [tmpdirC]).length from by simp,
        List.take_left]
      exact htd
  have hren : renameOp fs (root ++ [profilesC, tmpN]) (root ++ [profilesC, finalName]) =
      some (renameSubtree fs (root ++ [profilesC, tmpN])
        (root ++ [profilesC, finalName])) := by
    unfold renameOp
    rw [htmp]
    simp only []
    rw [if_pos hfinal]
  have hrootfs2 : isDirAt (renameSubtree fs (root ++ [profilesC, tmpN])
      (root ++ [profilesC, finalName])) root = true :=
    isDirAt_of_lookup_eq _ fs root (hfs2 root (by omega)) hrootfs
  unfold profile_atomic_activate
  rw [mkdirOp_of_exists fs (root ++ [profilesC]) (by simp) hparP Node.dir hpd]
  simp only []
  unfold activate_renamed
  rw [hren]
  simp only []
  obtain ⟨fs3, hmatch, h3vn, h3other⟩ : ∃ fs3,
      (match unlinkOp (renameSubtree fs (root ++ [profilesC, tmpN])
          (root ++ [profilesC, finalName])) (root ++ [virNewC]) with
       | some f => activate_swap f root (root ++ [profilesC, finalName]) txnName txnOk
       | none => activate_swap (renameSubtree fs (root ++ [profilesC, tmpN])
          (root ++ [profilesC, finalName])) root (root ++ [profilesC, finalName])
          txnName txnOk) =
        activate_swap fs3 root (root ++ [profilesC, finalName]) txnName txnOk ∧
      lookup fs3 (root ++ [virNewC]) = none ∧
      (∀ q, q ≠ root ++ [virNewC] → lookup fs3 q =
        lookup (renameSubtree fs (root ++ [profilesC, tmpN])
          (root ++ [profilesC, finalName])) q) := by
    cases hv : lookup (renameSubtree fs (root ++ [profilesC, tmpN])
        (root ++ [profilesC, finalName])) (root ++ [virNewC]) with
    | none =>
        refine ⟨renameSubtree fs (root ++ [profilesC, tmpN])
          (root ++ [profilesC, finalName]), ?_, hv, fun q _ => rfl⟩
        rw [unlinkOp_none_of_missing _ _ hv]
    | some n =>
        have hnd : n ≠ Node.dir := by
          rw [hfs2 _ (by simp)] at hv
          exact hvn n hv
        refine ⟨removeNode (renameSubtree fs (root ++ [profilesC, tmpN])
          (root ++ [profilesC, finalName])) (root ++ [virNewC]), ?_, ?_, ?_⟩
        · rw [unlinkOp_remove _ _ (by simp)
            (by rw [List.dropLast_concat]; exact hrootfs2) n hv hnd]
        · rw [lookup_removeNode, if_pos rfl]
        · intro q hq
          rw [lookup_removeNode, if_neg hq]
  rw [hmatch]
  apply activate_swap_ok fs3 root (root ++ [profilesC, finalName]) txnName txnOk h3vn
    ?hroot3 ?hvir3 ?hfin3 ?hfinVN ?hfinVIR ?htd3 ?htxn3 ?hpfx3 hrl nFINTXN
  case hroot3 =>
    refine isDirAt_of_lookup_eq fs3 _ root (h3other root ?_) hrootfs2
    intro h
    have h2 := congrArg List.length h
    simp at h2
  case hvir3 =>
    intro n hn
    rw [h3other _ (by
        intro h
        have h2 := List.append_cancel_left h
        simp [virC, virNewC] at h2),
      hfs2 _ (by simp)] at hn
    exact hvir n hn
  case hfin3 =>
    rw [h3other _ (by
        intro h
        have h2 := congrArg List.length h
        simp at h2)]
    exact hfs2fin
  case hfinVN =>
    intro h
    have h2 := congrArg List.length h
    simp at h2
  case hfinVIR =>
    intro h
    have h2 := congrArg List.length h
    simp at h2
  case htd3 =>
    rw [h3other _ (by
        intro h
        have h2 := List.append_cancel_left h
        simp [tmpdirC, virNewC] at h2),
      hfs2 _ (by simp)]
    exact htd
  case htxn3 =>
    rw [h3other _ (by
        intro h
        have h2 := congrArg List.length h
        simp at h2),
      hfs2txn]
    exact htxn
  case hpfx3 =>
    intro j hj
    by_cases hle : j + 1 ≤ root.length
    · rw [List.take_append_of_le_length (by omega)]
      rw [h3other _ (by
          intro h
          have h2 := congrArg List.length h
          rw [List.length_take] at h2
          simp at h2
          omega),
        hfs2 _ (by rw [List.length_take]; omega)]
      have := hTXNtake j hj
      rw [List.take_append_of_le_length (by omega)] at this
      exact this
    · have hj2 : j + 1 = root.length + 1 := by omega
      rw [show root ++ [tmpdirC, txnName] = (root ++ [tmpdirC]) ++ [txnName] from by simp,
        hj2, show root.length + 1 = (root ++ [tmpdirC]).length from by simp,
        List.take_left]
      rw [h3other _ (by
          intro h
          have h2 := List.append_cancel_left h
          simp [tmpdirC, virNewC] at h2),
        hfs2 _ (by simp)]
      exact htd

end PM

namespace FSm

theorem lookup_none_of_all_short (fs : FS) (base : FPath) (r : FPath)
    (h : ∀ e ∈ fs, e.1.take base.length ≠ base) :
    lookup fs (base ++ r) = none := by
  induction fs with
  | nil => rfl
  | cons x l ih =>
      rw [lookup_cons, if_neg ?_]
      · exact ih (fun e he => h e (by simp [he]))
      · intro he
        refine h x (by simp) ?_
        rw [he, List.take_append_of_le_length (le_refl _), List.take_length]

end FSm

/-- The ASCII bytes of the lowercase hex rendering of the NIST
empty-string digest. -/
def nistEmptyHexBytes : List Nat := [101, 51, 98, 48, 99, 52, 52, 50, 57, 56, 102, 99, 49, 99, 49, 52, 57, 97, 102, 98, 102, 52, 99, 56, 57, 57, 54, 102, 98, 57, 50, 52, 50, 55, 97, 101, 52, 49, 101, 52, 54, 52, 57, 98, 57, 51, 52, 99, 97, 52, 57, 53, 57, 57, 49, 98, 55, 56, 53, 50, 98, 56, 53, 53]


/-- C1: counterexample to the no-escape property.  Unpacking the
crafted evilArchive (entry 1 a symlink lnk with absolute target
/outside, entry 2 a regular file stored as lnk/evil, both stored
paths accepted by sanitize_relpath) into destination /d succeeds and
creates the file /outside/evil, a path that is not below the
destination directory: the fopen of the second entry follows the
symlink planted by the first. -/
theorem claim_C1_escape :
    ∃ fs1, Arch.do_unpack evilArchive destD fsEscape0 = some fs1 ∧
      FSm.lookup fs1 [compOutside, compEvil] = some (FSm.Node.file [88]) ∧
      FSm.pathLe (Arch.destComps destD) [compOutside, compEvil] = false := by
  refine ⟨_, rfl, ?_, ?_⟩
  · decide
  · decide

/-- C2 counterexample: the per-entry sanitizer of unpack accepts the
stored path a/../b, popping the earlier component and yielding b,
instead of rejecting the path outright as the profile-manager
normalizer does. -/
theorem claim_C2_cex :
    Arch.sanitize_relpath [97, 47, 46, 46, 47, 98] = some [[98]] ∧
    PM.normalize_relpath [97, 47, 46, 46, 47, 98] = none := by
  decide

/-- C2: amended normalization property.  For every raw path whose
slash-split tokens include dot-dot, the profile-manager
normalize_relpath rejects it outright; the unpack sanitizer
sanitize_relpath does not reject such paths (see the counterexample)
but any path it does accept is free of dot-dot, dot and empty
components. -/
theorem claim_C2_normalize_rejects (src : List Nat)
    (h : [46, 46] ∈ splitSlash src) :
    PM.normalize_relpath src = none ∧
    ∀ out, Arch.sanitize_relpath src = some out →
      ∀ c ∈ out, c ≠ [46, 46] ∧ c ≠ [46] ∧ c ≠ [] :=
  ⟨PM.normalize_dotdot src h, fun out hout => Arch.sanitize_good src out hout⟩

/-- C2 witness: the amended property at the concrete path a/../b. -/
theorem claim_C2_normalize_rejects_witness :
    [46, 46] ∈ splitSlash [97, 47, 46, 46, 47, 98] ∧
    (PM.normalize_relpath [97, 47, 46, 46, 47, 98] = none ∧
     ∀ out, Arch.sanitize_relpath [97, 47, 46, 46, 47, 98] = some out →
       ∀ c ∈ out, c ≠ [46, 46] ∧ c ≠ [46] ∧ c ≠ []) :=
  ⟨by decide, claim_C2_normalize_rejects [97, 47, 46, 46, 47, 98] (by decide)⟩

/-- C7: the one-shot sha256 computes the FIPS 180-4 digests of the
empty string and abc and sha256_to_hex renders the empty-string
digest as e3b0c442...b855; but the incremental implementation
diverges: sha256_inc_final pushes its padding bytes through
sha256_inc_update, which grows ctx.bitlen, and only afterwards reads
ctx.bitlen into the length field, so the empty string hashes to a
different digest than the one-shot function. -/
theorem claim_C7_inc_divergence :
    SHA.sha256 [] = nistEmpty ∧
    SHA.sha256 abcBytes = nistAbc ∧
    SHA.sha256_to_hex (SHA.sha256 []) = nistEmptyHexBytes ∧
    SHA.sha256_inc_final (SHA.sha256_inc_update SHA.sha256_inc_init []) = incEmptyDigest ∧
    incEmptyDigest ≠ nistEmpty := by
  refine ⟨by decide, by decide, by decide, by decide, by decide⟩

/-- C9: an archive whose entry-count field is zero makes do_unpack
return right after ensuring the destination directory, writing
nothing (in particular no manifest); a one-entry archive, by
contrast, gets its .manifest written. -/
theorem claim_C9_empty_archive :
    (∀ (rest destRaw : List Nat) (fs : FSm.FS),
      Arch.do_unpack (Arch.MAGICB ++ (Arch.u64le 0 ++ rest)) destRaw fs =
        Arch.ensure_destdir fs (Arch.destComps destRaw)) ∧
    (Arch.do_unpack oneArchive destD [([compD], FSm.Node.dir)]).map
        (fun f => FSm.lookup f [compD, Arch.manifestName]) =
      some (some (FSm.Node.file [97, 10])) :=
  ⟨fun rest destRaw fs => Arch.do_unpack_empty_archive rest destRaw fs, by decide⟩

/-- C10: hex decoding is case-insensitive and inverts rendering: for
every 32-entry digest of byte values, hex_to_bin recovers the digest
(with return count 32) from both the lowercase rendering of
sha256_to_hex and its uppercased variant. -/
theorem claim_C10_hex_roundtrip (d : List Nat) (h : ∀ b ∈ d, b < 256)
    (hl : d.length = 32) :
    SHA.hex_to_bin (SHA.sha256_to_hex d) 32 = some d ∧
    SHA.hex_to_bin (SHA.upperHex (SHA.sha256_to_hex d)) 32 = some d :=
  SHA.hex_to_bin_to_hex d h hl

/-- C10 witness: the roundtrip at the concrete NIST empty-string
digest. -/
theorem claim_C10_hex_roundtrip_witness :
    (∀ b ∈ nistEmpty, b < 256) ∧ nistEmpty.length = 32 ∧
    (SHA.hex_to_bin (SHA.sha256_to_hex nistEmpty) 32 = some nistEmpty ∧
     SHA.hex_to_bin (SHA.upperHex (SHA.sha256_to_hex nistEmpty)) 32 = some nistEmpty) :=
  ⟨by decide, by decide, claim_C10_hex_roundtrip nistEmpty (by decide) (by decide)⟩

/-- C3 counterexample: a first import of foo-1.0 succeeds (code 0); a
second import of the same name, version and expected digest returns
-1, not the success the claim promises. -/
theorem claim_C3_cex :
    (Store.store_import_pkg_atomic [([compR], FSm.Node.dir)] [compR] compFoo compVer
        shaD1 tmpA unpackOne acceptAll).code = 0 ∧
    (Store.store_import_pkg_atomic
        (Store.store_import_pkg_atomic [([compR], FSm.Node.dir)] [compR] compFoo compVer
          shaD1 tmpA unpackOne acceptAll).fs
        [compR] compFoo compVer shaD1 tmpB unpackOne acceptAll).code = -1 := by
  decide

/-- A store state where foo-1.0 is already imported. -/
def fsC3W : FSm.FS :=
  [([compR], FSm.Node.dir), ([compR, Store.storeC], FSm.Node.dir),
   ([compR, Store.storeC, compFoo], FSm.Node.dir),
   ([compR, Store.storeC, compFoo, compVer], FSm.Node.dir)]

/-- C3 witness: the amended property at a concrete store already
holding foo-1.0. -/
theorem store_import_existing_version_witness :
    tmpA ≠ compFoo ∧
    (Store.store_import_pkg_atomic fsC3W [compR] compFoo compVer shaD1 tmpA
        unpackOne acceptAll).code = -1 ∧
    (∀ p, FSm.pathLe ([compR] ++ [Store.storeC, compFoo, compVer]) p = true →
      FSm.lookup (Store.store_import_pkg_atomic fsC3W [compR] compFoo compVer shaD1 tmpA
          unpackOne acceptAll).fs p = FSm.lookup fsC3W p) := by
  refine ⟨by decide, ?_⟩
  apply Store.store_import_existing_version fsC3W [compR] compFoo compVer shaD1 tmpA
    unpackOne acceptAll
  · unfold FSm.chainDirs
    decide
  · decide
  · intro p hp
    obtain ⟨r, rfl⟩ := (FSm.pathLe_iff _ p).mp hp
    refine FSm.lookup_none_of_all_short fsC3W _ r ?_
    decide
  · decide
  · intro f d q hq
    show FSm.lookup (FSm.setNode f (d ++ [[120]]) (FSm.Node.file [104])) q = FSm.lookup f q
    rw [FSm.lookup_setNode, if_neg ?_]
    intro he
    rw [he] at hq
    exact hq (FSm.pathLe_append_self d _)

/-- C4: after an import whose tree fails validation the importer
reports -1, but the temporary import tree under store/ survives: the
cleanup is a single non-recursive rmdir, which cannot remove the
non-empty temp directory, and no store entry for the package is
created. -/
theorem claim_C4_debris :
    (Store.store_import_pkg_atomic [([compR], FSm.Node.dir)] [compR] compFoo compVer
        shaD1 tmpA unpackOne rejectAll).code = -1 ∧
    FSm.lookup (Store.store_import_pkg_atomic [([compR], FSm.Node.dir)] [compR] compFoo
        compVer shaD1 tmpA unpackOne rejectAll).fs
      [compR, Store.storeC, tmpA] = some FSm.Node.dir ∧
    FSm.lookup (Store.store_import_pkg_atomic [([compR], FSm.Node.dir)] [compR] compFoo
        compVer shaD1 tmpA unpackOne rejectAll).fs
      [compR, Store.storeC, tmpA, compFoo, compVer, Store.filesC, [120]] =
        some (FSm.Node.file [104]) ∧
    FSm.lookup (Store.store_import_pkg_atomic [([compR], FSm.Node.dir)] [compR] compFoo
        compVer shaD1 tmpA unpackOne rejectAll).fs
      [compR, Store.storeC, compFoo] = none := by
  decide

/-- The duplicate of entryDup1 with the existing target /s/1. -/
def entryDup3 : PM.ProfileEntry :=
  ⟨[98, 105, 110, 47, 120], [47, 115, 47, 49], [112, 50], [49]⟩

/-- C5 counterexample: two entries whose relpaths normalize
identically, yet the assembler returns PROFILE_MISSING_TARGET, not
PROFILE_CONFLICT, because the stat of the second target fails before
the conflict scan of that entry runs. -/
theorem claim_C5_cex :
    PM.normalize_relpath PMTests.entryDup1.relpath =
      PM.normalize_relpath PMTests.entryDup2.relpath ∧
    (PM.profile_assemble_tmp PMTests.statOkD PMTests.fsP0 PMTests.rootP PMTests.tmpNP
        [PMTests.entryDup1, PMTests.entryDup2]).1 = PM.PROFILE_MISSING_TARGET ∧
    PM.PROFILE_MISSING_TARGET ≠ PM.PROFILE_CONFLICT := by
  refine ⟨by decide, by decide, by decide⟩

/-- A root with an existing profiles directory. -/
def fsC5W : FSm.FS := [([[114]], FSm.Node.dir), ([[114], PM.profilesC], FSm.Node.dir)]

/-- C5 witness: the amended property at a concrete duplicate pair
whose targets both exist. -/
theorem profile_assemble_dup_conflict_witness :
    PMTests.statOkD entryDup3.target_path = true ∧
    ((PM.profile_assemble_tmp PMTests.statOkD fsC5W PMTests.rootP PMTests.tmpNP
        ([PMTests.entryDup1] ++ entryDup3 :: [])).1 = PM.PROFILE_CONFLICT ∧
     (PM.profile_assemble_tmp PMTests.statOkD fsC5W PMTests.rootP PMTests.tmpNP
        ([PMTests.entryDup1] ++ entryDup3 :: [])).2.2 = none ∧
     ∀ q, FSm.lookup (PM.profile_assemble_tmp PMTests.statOkD fsC5W PMTests.rootP
          PMTests.tmpNP ([PMTests.entryDup1] ++ entryDup3 :: [])).2.1 q =
       if FSm.pathLe (PMTests.rootP ++ [PM.profilesC, PMTests.tmpNP]) q = true then none
       else FSm.lookup fsC5W q) := by
  refine ⟨by decide, ?_⟩
  apply PM.profile_assemble_dup_conflict PMTests.statOkD fsC5W PMTests.rootP PMTests.tmpNP
    [PMTests.entryDup1] entryDup3 [] PMTests.entryDup1 (by decide)
    [[98, 105, 110], [120]] (by decide) (by decide) (by decide)
  · intro e he
    have he2 : e = PMTests.entryDup1 := by simpa using he
    subst he2
    exact ⟨⟨[[98, 105, 110], [120]], by decide⟩, by decide, by decide⟩
  · simp
  · unfold FSm.chainDirs
    decide
  · intro p hp
    obtain ⟨r, rfl⟩ := (FSm.pathLe_iff _ p).mp hp
    refine FSm.lookup_none_of_all_short fsC5W _ r ?_
    decide

/-- C6: under the activation preconditions (the pandora root chain
and profiles directory real directories, the temp profile a directory
inside profiles, the final name fresh, vir and vir-new not
directories, the tmp log directory present with a fresh log name, and
the root path short enough for resolution), profile_atomic_activate
returns 0, afterwards vir is a symlink storing the path of the
renamed final profile and that final profile path is an existing
directory; and the returned code never depends on whether the txn log
write succeeds. -/
theorem claim_C6_activation (fs : FSm.FS) (root : FSm.FPath)
    (tmpN finalName txnName : FSm.Comp) (txnOk : Bool)
    (hrl : root.length + 2 < FSm.FUEL)
    (hchain : FSm.chainDirs fs (root ++ [PM.profilesC]))
    (htmp : FSm.lookup fs (root ++ [PM.profilesC, tmpN]) = some FSm.Node.dir)
    (hfinal : FSm.lookup fs (root ++ [PM.profilesC, finalName]) = none)
    (hvn : ∀ n, FSm.lookup fs (root ++ [PM.virNewC]) = some n → n ≠ FSm.Node.dir)
    (hvir : ∀ n, FSm.lookup fs (root ++ [PM.virC]) = some n → n ≠ FSm.Node.dir)
    (htd : FSm.lookup fs (root ++ [PM.tmpdirC]) = some FSm.Node.dir)
    (htxn : FSm.lookup fs (root ++ [PM.tmpdirC, txnName]) = none) :
    ((PM.profile_atomic_activate fs root (root ++ [PM.profilesC, tmpN]) finalName txnName
        txnOk).1 = 0 ∧
     FSm.lookup (PM.profile_atomic_activate fs root (root ++ [PM.profilesC, tmpN])
         finalName txnName txnOk).2 (root ++ [PM.virC]) =
       some (FSm.Node.symlink (PM.pathBytes (root ++ [PM.profilesC, finalName]))) ∧
     FSm.lookup (PM.profile_atomic_activate fs root (root ++ [PM.profilesC, tmpN])
         finalName txnName txnOk).2 (root ++ [PM.profilesC, finalName]) =
       some FSm.Node.dir) ∧
    ∀ t1 t2 : Bool,
      (PM.profile_atomic_activate fs root (root ++ [PM.profilesC, tmpN]) finalName
        txnName t1).1 =
      (PM.profile_atomic_activate fs root (root ++ [PM.profilesC, tmpN]) finalName
        txnName t2).1 :=
  ⟨PM.profile_atomic_activate_ok fs root tmpN finalName txnName txnOk hrl hchain htmp
     hfinal hvn hvir htd htxn,
   fun t1 t2 => PM.activate_code_txn fs root (root ++ [PM.profilesC, tmpN]) finalName
     txnName t1 t2⟩

/-- C6 witness: activation at the concrete assembled state, with the
txn write succeeding. -/
theorem claim_C6_activation_witness :
    FSm.lookup PMTests.fsAct (PMTests.rootP ++ [PM.profilesC, PMTests.tmpNP]) =
      some FSm.Node.dir ∧
    (((PM.profile_atomic_activate PMTests.fsAct PMTests.rootP
        (PMTests.rootP ++ [PM.profilesC, PMTests.tmpNP]) [102] [108] true).1 = 0 ∧
      FSm.lookup (PM.profile_atomic_activate PMTests.fsAct PMTests.rootP
          (PMTests.rootP ++ [PM.profilesC, PMTests.tmpNP]) [102] [108] true).2
        (PMTests.rootP ++ [PM.virC]) =
        some (FSm.Node.symlink (PM.pathBytes (PMTests.rootP ++ [PM.profilesC, [102]]))) ∧
      FSm.lookup (PM.profile_atomic_activate PMTests.fsAct PMTests.rootP
          (PMTests.rootP ++ [PM.profilesC, PMTests.tmpNP]) [102] [108] true).2
        (PMTests.rootP ++ [PM.profilesC, [102]]) = some FSm.Node.dir) ∧
     ∀ t1 t2 : Bool,
       (PM.profile_atomic_activate PMTests.fsAct PMTests.rootP
         (PMTests.rootP ++ [PM.profilesC, PMTests.tmpNP]) [102] [108] t1).1 =
       (PM.profile_atomic_activate PMTests.fsAct PMTests.rootP
         (PMTests.rootP ++ [PM.profilesC, PMTests.tmpNP]) [102] [108] t2).1) := by
  refine ⟨by decide, ?_⟩
  apply claim_C6_activation PMTests.fsAct PMTests.rootP PMTests.tmpNP [102] [108] true
    (by decide) (by unfold FSm.chainDirs; decide) (by decide) (by decide)
    ?_ ?_ (by decide) (by decide)
  · intro n hn
    rw [show FSm.lookup PMTests.fsAct (PMTests.rootP ++ [PM.virNewC]) = none from
      by decide] at hn
    exact absurd hn (by simp)
  · intro n hn
    rw [show FSm.lookup PMTests.fsAct (PMTests.rootP ++ [PM.virC]) = none from
      by decide] at hn
    exact absurd hn (by simp)

/-- C8: the offsets do_pack writes are sequential, the first at
header size 16 plus the table size and each later one the previous
plus that entry size; and do_unpack never reads the stored offsets:
two archives differing only in their offset fields unpack
identically, the blob region being located by the running size sum
after the table. -/
theorem claim_C8_offsets (recs : List Arch.PackRec) (offs1 offs2 blobs : List Nat)
    (destRaw : List Nat) (fs : FSm.FS)
    (h1 : offs1.length = recs.length) (h2 : offs2.length = recs.length)
    (hcnt : recs.length < 18446744073709551616)
    (hwf : ∀ r ∈ recs, r.path.length < 4294967296) :
    (recs ≠ [] → (Arch.packOffsets recs).getD 0 0 = 16 + Arch.tableSize recs) ∧
    (∀ i, i + 1 < recs.length → (Arch.packOffsets recs).getD (i + 1) 0 =
      (Arch.packOffsets recs).getD i 0 + (recs.getD i Arch.noRec).size) ∧
    Arch.do_unpack (Arch.archiveBytes recs offs1 blobs) destRaw fs =
      Arch.do_unpack (Arch.archiveBytes recs offs2 blobs) destRaw fs :=
  ⟨fun hne => Arch.packOffsets_head recs hne,
   fun i hi => Arch.packOffsets_step recs i hi,
   Arch.do_unpack_ignores_offsets recs offs1 offs2 blobs destRaw fs h1 h2 hcnt hwf⟩

/-- C8 witness: the offset law and offset-independence at a concrete
one-entry archive with two different stored offsets. -/
theorem claim_C8_offsets_witness :
    ([0] : List Nat).length = [Arch.PackRec.mk [97] 1 0].length ∧
    (([Arch.PackRec.mk [97] 1 0] : List Arch.PackRec) ≠ [] →
      (Arch.packOffsets [Arch.PackRec.mk [97] 1 0]).getD 0 0 =
        16 + Arch.tableSize [Arch.PackRec.mk [97] 1 0]) ∧
    (∀ i, i + 1 < ([Arch.PackRec.mk [97] 1 0] : List Arch.PackRec).length →
      (Arch.packOffsets [Arch.PackRec.mk [97] 1 0]).getD (i + 1) 0 =
        (Arch.packOffsets [Arch.PackRec.mk [97] 1 0]).getD i 0 +
          (([Arch.PackRec.mk [97] 1 0] : List Arch.PackRec).getD i Arch.noRec).size) ∧
    Arch.do_unpack (Arch.archiveBytes [Arch.PackRec.mk [97] 1 0] [0] [66]) destD
        [([compD], FSm.Node.dir)] =
      Arch.do_unpack (Arch.archiveBytes [Arch.PackRec.mk [97] 1 0] [999] [66]) destD
        [([compD], FSm.Node.dir)] := by
  refine ⟨by decide, ?_⟩
  have h := claim_C8_offsets [Arch.PackRec.mk [97] 1 0] [0] [999] [66] destD
    [([compD], FSm.Node.dir)] (by decide) (by decide) (by decide) (by decide)
  exact h
